import Mathlib

/-!
# Verification of the json-gator data-aggregation hub

A shallow embedding, in Lean 4, of the path-indexed data store, the
transformation engine and the MQTT publish bridge of the json-gator
repository, together with proofs and refutations of the specification
claims about them.

Conventions of the embedding:

* Go's dynamic `any` JSON values become the inductive type `JValue`.
  Go distinguishes a typed nil `map[string]any` (which serializes to
  JSON `null`) from an empty map (which serializes to `{}`); the
  constructor `JValue.nilMap` models the former.  A Go type assertion
  `v.(map[string]any)` succeeds on a typed nil map, so `asMap` accepts
  both `obj` and `nilMap`.
* Go maps become association lists `List (String × JValue)`; `range`
  iteration order, which Go leaves unspecified, is the list order, so a
  claim about iteration-order independence quantifies over permutations
  of the list.  Since Go maps are unordered, statements comparing maps
  built in different insertion orders use per-key lookup equality, not
  list equality.
* The V8 scripting bridge is an opaque parameter
  `eval : String → List (String × JValue) → Option JValue`
  taking the implementation source and the global bindings;
  `none` models a script/conversion failure.
* The repository contains two generations of the model code.  Namespace
  `V1` embeds `datamodel.go` / the `UpdateModelData` engine (write-time
  transformation, no cache); namespace `V2` embeds the cached engine
  with the cycle guard (`applyTransformation`, `GetModelData`,
  `SetModelData`, `applyNestedTransformations`) together with the tree
  helpers `GetMapData` / `SetMapData` / `GetStrTokens`.
* Go's in-place mutation of shared nested maps (the shallow copy made
  by `applyNestedTransformations` shares its sub-maps with the model)
  is tracked by the `Slot` discipline documented at `setSlots`.
-/

/-- A JSON-representable Go value.  `nilMap` is Go's typed nil
`map[string]any`: it passes a map type assertion and ranges as empty,
but serializes to `null` and is distinct from the empty map. -/
inductive JValue where
  | null : JValue
  | nilMap : JValue
  | bool (b : Bool) : JValue
  | num (n : Int) : JValue
  | str (s : String) : JValue
  | arr (elems : List JValue) : JValue
  | obj (fields : List (String × JValue)) : JValue
deriving Repr

/-- Go type assertion `v.(map[string]any)`: succeeds on a real map and
on a typed nil map (which behaves as an empty map for reads). -/
def asMap : JValue → Option (List (String × JValue))
  | .obj fields => some fields
  | .nilMap => some []
  | _ => none

/-- First-match lookup in an association list (Go map read `m[k]`). -/
def lookupStr (k : String) : List (String × JValue) → Option JValue
  | [] => none
  | (k', v) :: rest => if k' = k then some v else lookupStr k rest

/-- Go map write `m[k] = v`: replace the binding of `k` if present,
append it otherwise.  Go maps are unordered, so the position of the
binding in the association list is not observable; statements that
compare whole maps built in different orders use per-key lookup
equality instead of list equality. -/
def objInsert (k : String) (v : JValue) : List (String × JValue) → List (String × JValue)
  | [] => [(k, v)]
  | (k', v') :: rest =>
    if k' = k then (k, v) :: rest
    else (k', v') :: objInsert k v rest

/-- Go map deletion `delete(m, k)`. -/
def objErase (k : String) : List (String × JValue) → List (String × JValue)
  | [] => []
  | (k', v') :: rest => if k' = k then objErase k rest else (k', v') :: objErase k rest

@[simp] theorem lookupStr_nil (k : String) : lookupStr k [] = none := rfl

theorem lookupStr_objInsert_self (k : String) (v : JValue) (m : List (String × JValue)) :
    lookupStr k (objInsert k v m) = some v := by
  induction m with
  | nil => simp [objInsert, lookupStr]
  | cons hd tl ih =>
    obtain ⟨k', v'⟩ := hd
    by_cases h1 : k' = k
    · simp [objInsert, lookupStr, h1]
    · simp only [objInsert, if_neg h1, lookupStr, if_neg h1]
      exact ih

theorem lookupStr_objInsert_ne (k q : String) (v : JValue) (m : List (String × JValue))
    (h : q ≠ k) : lookupStr q (objInsert k v m) = lookupStr q m := by
  have hk : ¬ (k = q) := fun hh => h (Eq.symm hh)
  induction m with
  | nil => simp [objInsert, lookupStr, hk]
  | cons hd tl ih =>
    obtain ⟨k', v'⟩ := hd
    by_cases h1 : k' = k
    · subst h1
      simp only [objInsert, if_pos rfl, lookupStr, if_neg hk]
    · simp only [objInsert, if_neg h1, lookupStr]
      by_cases h3 : k' = q
      · simp [h3]
      · simp [h3, ih]

theorem lookupStr_objErase_self (k : String) (m : List (String × JValue)) :
    lookupStr k (objErase k m) = none := by
  induction m with
  | nil => rfl
  | cons hd tl ih =>
    obtain ⟨k', v'⟩ := hd
    by_cases h : k' = k
    · simpa [objErase, h] using ih
    · simpa [objErase, h, lookupStr] using ih

theorem lookupStr_objErase_ne (k q : String) (m : List (String × JValue)) (h : q ≠ k) :
    lookupStr q (objErase k m) = lookupStr q m := by
  induction m with
  | nil => rfl
  | cons hd tl ih =>
    obtain ⟨k', v'⟩ := hd
    by_cases hk : k' = k
    · subst hk
      have hkq : ¬ (k' = q) := fun hh => h (Eq.symm hh)
      simpa [objErase, lookupStr, hkq] using ih
    · simp only [objErase, if_neg hk, lookupStr]
      by_cases hq : k' = q
      · simp [hq]
      · simp only [if_neg hq]
        exact ih

/-! ## Go string helpers -/

/-- `strings.Split(s, "/")`: `goSplit "" = [""]`, never the empty list. -/
def splitSlashAux : List Char → List Char → List String
  | [], acc => [String.mk acc.reverse]
  | c :: cs, acc =>
    if c = '/' then String.mk acc.reverse :: splitSlashAux cs []
    else splitSlashAux cs (c :: acc)

/-- Go `strings.Split(path, "/")`. -/
def goSplit (s : String) : List String := splitSlashAux s.data []

/-- Go `strings.Join(tokens, "/")`. -/
def goJoin : List String → String
  | [] => ""
  | [t] => t
  | t :: t' :: rest => t ++ "/" ++ goJoin (t' :: rest)

/-- Membership of a character in a Go cutset string. -/
def inCutset (cut : String) (c : Char) : Bool := cut.data.contains c

/-- Go `strings.TrimLeft(s, cutset)` — removes leading characters drawn
from the cutset (NOT a string-prefix removal). -/
def trimLeftCut (s cut : String) : String := String.mk (s.data.dropWhile (inCutset cut))

/-- Go `strings.Trim(s, "/")`. -/
def trimSlash (s : String) : String :=
  String.mk (((s.data.dropWhile (· = '/')).reverse.dropWhile (· = '/')).reverse)

/-- Go `strings.HasPrefix(s, pre)` — byte prefix, here as the
character-list prefix (equivalent on valid UTF-8). -/
def goHasPre (s pre : String) : Bool := pre.data.isPrefixOf s.data

/-- `GetStrTokens` from the tree-helper file: trims the characters of
`ignorePre` from the left (cutset semantics), trims slashes at both
ends, and splits what remains. -/
def GetStrTokens (path ignorePre : String) : List String :=
  let t := trimSlash (trimLeftCut path ignorePre)
  if t = "" then [] else goSplit t

/-! ## Errors

Structural error values standing for the `fmt.Errorf` messages of the
source.  `isNotFound` models `strings.Contains(err.Error(), "not found")`
on the errors the model code can actually produce. -/

inductive Err where
  | notFound (tok : String) : Err
  | notObject (tok : String) : Err
  | rootNotObject : Err
  | circular (path : String) : Err
  | invalidFormat (path : String) : Err
  | paramNotString (name : String) : Err
  | paramFail (name : String) (e : Err) : Err
  | selfFail (e : Err) : Err
  | evalFail : Err
  | noTransformForPath (path : String) : Err
  | fuelOut : Err
deriving Repr, DecidableEq

/-- Which error messages contain the substring `"not found"`. -/
def Err.isNotFound : Err → Bool
  | .notFound _ => true
  | _ => false

/-! ## Tree store (`GetMapData` / `SetMapData`, tree-helper file) -/

/-- Loop body of `GetMapData`: walk tokens; a missing key is
`"path element not found"`; reaching a non-map mid-path returns the
zero-value (nil) map with a nil error (`return currentMap, nil`). -/
def getMapAux : JValue → List String → Except Err JValue
  | cur, [] => .ok cur
  | cur, t :: ts =>
    match asMap cur with
    | none => .ok .nilMap
    | some fields =>
      match lookupStr t fields with
      | none => .error (.notFound t)
      | some w => getMapAux w ts

/-- `GetMapData(&model, pathTokens)`. -/
def GetMapData (m : List (String × JValue)) (toks : List String) : Except Err JValue :=
  getMapAux (.obj m) toks

/-- Inner walk of `SetMapData` for a non-empty token path: create a
missing level as an empty map, replace a non-map level by an empty map,
and set the final key. -/
def setMapInner : List (String × JValue) → List String → JValue → List (String × JValue)
  | fields, [], _ => fields
  | fields, [t], v => objInsert t v fields
  | fields, t :: t' :: rest, v =>
    let sub : List (String × JValue) :=
      match lookupStr t fields with
      | some w => (asMap w).getD []
      | none => []
    objInsert t (.obj (setMapInner sub (t' :: rest) v)) fields

/-- `SetMapData(&model, pathTokens, value)`: the root path requires a
JSON object (`expected JSON object for root model update`). -/
def SetMapData (m : List (String × JValue)) (toks : List String) (v : JValue) :
    Except Err (List (String × JValue)) :=
  match toks with
  | [] =>
    match asMap v with
    | some fields => .ok fields
    | none => .error .rootNotObject
  | _ :: _ => .ok (setMapInner m toks v)

/-! ## Transformation definitions (shared by both engine generations) -/

/-- Extract the `parameters` entries, requiring every value to be a
string (`parameter '%s' must be a string`). -/
def extractParams : List (String × JValue) → Except Err (List (String × String))
  | [] => .ok []
  | (k, .str s) :: rest => (extractParams rest).map (fun ps => (k, s) :: ps)
  | (k, _) :: _ => .error (.paramNotString k)

/-- Parse a stored transformation value: it must be an object with a
string `implementation`; a `parameters` entry that is not an object is
ignored (the Go code leaves `parameters` empty in that case). -/
def parseTransformation (path : String) (t : JValue) :
    Except Err (String × List (String × String)) :=
  match asMap t with
  | none => .error (.invalidFormat path)
  | some fields =>
    match lookupStr "implementation" fields with
    | some (.str impl) =>
      match lookupStr "parameters" fields with
      | none => .ok (impl, [])
      | some pv =>
        match asMap pv with
        | none => .ok (impl, [])
        | some ps =>
          match extractParams ps with
          | .error e => .error e
          | .ok ps' => .ok (impl, ps')
    | _ => .error (.invalidFormat path)

/-- Install resolved parameter bindings into the V8 global object on
top of existing bindings (`ctx.Global().Set(paramName, ...)`). -/
def bindParams (bnds : List (String × JValue)) (resolved : List (String × JValue)) :
    List (String × JValue) :=
  resolved.foldl (fun b nv => objInsert nv.1 nv.2 b) bnds

/-- The opaque scripting bridge: implementation source and global
bindings to a result; `none` is a script or conversion failure. -/
def Evaluator : Type := String → List (String × JValue) → Option JValue

/-! ## V1: the `UpdateModelData` engine (datamodel.go / its structured
successor): raw navigation that fails on non-objects, write-time
transformation with `self` bound to the incoming value, no cache. -/

namespace V1

/-- Loop of V1 `GetModelData`: `path element '%s' does not point to an
object` on a non-map, `path element '%s' not found` on a missing key. -/
def getModelAux : JValue → List String → Except Err JValue
  | cur, [] => .ok cur
  | cur, t :: ts =>
    match asMap cur with
    | none => .error (.notObject t)
    | some fields =>
      match lookupStr t fields with
      | none => .error (.notFound t)
      | some w => getModelAux w ts

/-- V1 `GetModelData(pathTokens)` — the raw read. -/
def GetModelData (m : List (String × JValue)) (toks : List String) : Except Err JValue :=
  getModelAux (.obj m) toks

/-- Resolve the declared parameters through the raw V1 read
(`failed to resolve parameter ...` wraps the nested error). -/
def resolveParams (m : List (String × JValue)) :
    List (String × String) → Except Err (List (String × JValue))
  | [] => .ok []
  | (n, p) :: rest =>
    match GetModelData m (goSplit p) with
    | .error e => .error (.paramFail n e)
    | .ok v => (resolveParams m rest).map (fun rs => (n, v) :: rs)

/-- V1 `applyTransformation(pathTokens, data)`: returns the pair
(result, error) exactly as the Go function does — `(data, err)` when no
transformation is registered at the joined path, `(nil, err)` on any
real failure, `(result, nil)` on success.  `self` is bound to the
incoming `data`, parameters are bound on top. -/
def applyTransformation (eval : Evaluator) (m : List (String × JValue))
    (transfs : List (String × JValue)) (toks : List String) (data : JValue) :
    JValue × Option Err :=
  let path := goJoin toks
  match lookupStr path transfs with
  | none => (data, some (.noTransformForPath path))
  | some t =>
    match parseTransformation path t with
    | .error e => (.null, some e)
    | .ok (impl, ps) =>
      match resolveParams m ps with
      | .error e => (.null, some e)
      | .ok rvs =>
        match eval impl (bindParams [("self", data)] rvs) with
        | none => (.null, some .evalFail)
        | some r => (r, none)

/-- The intermediate-level walk of `UpdateModelData` (everything before
the final assignment): create a missing level as an empty map and
replace a non-map level by an empty map, for each listed token. -/
def ensurePath : List (String × JValue) → List String → List (String × JValue)
  | fields, [] => fields
  | fields, t :: rest =>
    let sub : List (String × JValue) :=
      match lookupStr t fields with
      | some w => (asMap w).getD []
      | none => []
    objInsert t (.obj (ensurePath sub rest)) fields

/-- V1 `UpdateModelData(pathTokens, jsonData)`.  Root writes require an
object.  A single-token write stores the raw value directly and
returns. For deeper paths the intermediate levels are created, the
transformation at the exact path is attempted (its error is only
logged), and the FIRST component of the Go pair — transformed value,
raw data, or nil — is stored at the path. -/
def UpdateModelData (eval : Evaluator) (m : List (String × JValue))
    (transfs : List (String × JValue)) (toks : List String) (v : JValue) :
    Except Err (List (String × JValue)) :=
  match toks with
  | [] =>
    match asMap v with
    | some fields => .ok fields
    | none => .error .rootNotObject
  | [t] => .ok (objInsert t v m)
  | t :: t' :: rest =>
    let m₁ := ensurePath m ((t :: t' :: rest).dropLast)
    let r := applyTransformation eval m₁ transfs (t :: t' :: rest) v
    .ok (setMapInner m₁ (t :: t' :: rest) r.1)

end V1

/-! ## Raw navigation outcomes (spec-side, for the raw-get claim) -/

/-- Outcome of walking a token path through the raw tree. -/
inductive NavOutcome where
  | value (v : JValue) : NavOutcome
  | absent (tok : String) : NavOutcome
  | nonMapping (tok : String) : NavOutcome
deriving Repr

/-- Modelled from the claim's words: scanning the path left to right,
the first obstruction is either a token looked up in a mapping that
lacks it (`absent`), or a token that would have to index into a
non-mapping (`nonMapping`); otherwise navigation yields a value. -/
def firstObstruction : JValue → List String → NavOutcome
  | v, [] => .value v
  | v, t :: ts =>
    match asMap v with
    | none => .nonMapping t
    | some fields =>
      match lookupStr t fields with
      | none => .absent t
      | some w => firstObstruction w ts

theorem getModelAux_firstObstruction (p : List String) :
    ∀ v : JValue, V1.getModelAux v p =
      (match firstObstruction v p with
       | .value w => .ok w
       | .absent t => .error (.notFound t)
       | .nonMapping t => .error (.notObject t)) := by
  induction p with
  | nil => intro v; rfl
  | cons t ts ih =>
    intro v
    simp only [V1.getModelAux, firstObstruction]
    cases h1 : asMap v with
    | none => simp [h1]
    | some fields =>
      cases h2 : lookupStr t fields with
      | none => simp [h1, h2]
      | some w => simp only [h1, h2]; exact ih w

theorem getMapAux_firstObstruction (p : List String) :
    ∀ v : JValue, getMapAux v p =
      (match firstObstruction v p with
       | .value w => .ok w
       | .absent t => .error (.notFound t)
       | .nonMapping t => .ok .nilMap) := by
  induction p with
  | nil => intro v; rfl
  | cons t ts ih =>
    intro v
    simp only [getMapAux, firstObstruction]
    cases h1 : asMap v with
    | none => simp [h1]
    | some fields =>
      cases h2 : lookupStr t fields with
      | none => simp [h1, h2]
      | some w => simp only [h1, h2]; exact ih w

/-! ## Setting then reading back (V1) -/

theorem getModelData_setMapInner :
    ∀ (toks : List String) (m : List (String × JValue)) (r : JValue),
      toks ≠ [] → V1.GetModelData (setMapInner m toks r) toks = .ok r
  | [], _, _, h => absurd rfl h
  | [t], m, r, _ => by
    simp [V1.GetModelData, V1.getModelAux, setMapInner, asMap, lookupStr_objInsert_self]
  | t :: t' :: rest, m, r, _ => by
    have ih := getModelData_setMapInner (t' :: rest)
      ((match lookupStr t m with
        | some w => (asMap w).getD []
        | none => []) : List (String × JValue)) r (by simp)
    simp only [V1.GetModelData] at ih
    simp only [V1.GetModelData, setMapInner, V1.getModelAux, asMap,
      lookupStr_objInsert_self]
    exact ih

/-! ## Concrete fixtures used by counterexamples and witnesses -/

/-- An evaluator that returns `99` for the implementation `"inc"` and
fails on everything else. -/
def evalInc : Evaluator := fun impl _ => if impl = "inc" then some (.num 99) else none

/-- An evaluator that always fails (a script error on every run). -/
def evalNone : Evaluator := fun _ _ => none

/-- A transformation table with a definition exactly at the
single-token path `x`. -/
def transfsX : List (String × JValue) := [("x", .obj [("implementation", .str "inc")])]

/-- A transformation table with a definition exactly at `a/b`. -/
def transfsAB : List (String × JValue) := [("a/b", .obj [("implementation", .str "inc")])]

/-- A malformed definition at `a/b`: the stored value is not an object,
so parsing fails with the invalid-format error. -/
def transfsBad : List (String × JValue) := [("a/b", .str "bad")]

/-- A definition at `a/b` whose single parameter reads the missing path
`nope`, so parameter resolution fails. -/
def transfsParam : List (String × JValue) :=
  [("a/b", .obj [("implementation", .str "inc"),
                 ("parameters", .obj [("p", .str "nope")])])]

/-! ## C1 -/

/-- C1 counterexample.  The claim says: for every non-root path `p`,
when a transformation is defined exactly at `p`, `write(p, v)` followed
by `readRaw(p)` returns the bridge's output with `self = v`.  At the
single-token path `x` — with a transformation defined exactly at `x`
whose bridge output on `self = 1` is `99` — the write stores the raw
`1` and `readRaw` returns `1`, not `99`: `UpdateModelData` returns
before attempting any transformation when the path has one token. -/
theorem c1_counterexample :
    lookupStr (goJoin ["x"]) transfsX = some (.obj [("implementation", .str "inc")]) ∧
    evalInc "inc" (bindParams [("self", .num 1)] []) = some (.num 99) ∧
    V1.UpdateModelData evalInc [] transfsX ["x"] (.num 1) = .ok [("x", .num 1)] ∧
    V1.GetModelData [("x", .num 1)] ["x"] = .ok (.num 1) ∧
    JValue.num 1 ≠ JValue.num 99 := by
  refine ⟨rfl, rfl, rfl, rfl, ?_⟩
  intro h
  simp at h

/-- C1 (amended): after `write(p, v)`, `readRaw(p)` returns `v` when no
transformation is defined at `p` and ALSO always when `p` has exactly
one token (the write-time transformation is skipped there); when `p`
has at least two tokens, a transformation is defined exactly at `p`,
and the bridge succeeds on the binding environment containing
`self = v`, `readRaw(p)` returns the bridge's output. -/
theorem c1_write_read_raw (eval : Evaluator) (m transfs : List (String × JValue))
    (t : String) (toks : List String) (v : JValue) :
    (V1.UpdateModelData eval m transfs [t] v = .ok (objInsert t v m) ∧
      V1.GetModelData (objInsert t v m) [t] = .ok v)
    ∧
    (∀ t₁ t₂ rest m', toks = t₁ :: t₂ :: rest →
      lookupStr (goJoin toks) transfs = none →
      V1.UpdateModelData eval m transfs toks v = .ok m' →
      V1.GetModelData m' toks = .ok v)
    ∧
    (∀ t₁ t₂ rest m' tdef impl ps rvs r, toks = t₁ :: t₂ :: rest →
      lookupStr (goJoin toks) transfs = some tdef →
      parseTransformation (goJoin toks) tdef = .ok (impl, ps) →
      V1.resolveParams (V1.ensurePath m toks.dropLast) ps = .ok rvs →
      eval impl (bindParams [("self", v)] rvs) = some r →
      V1.UpdateModelData eval m transfs toks v = .ok m' →
      V1.GetModelData m' toks = .ok r) := by
  refine ⟨⟨rfl, ?_⟩, ?_, ?_⟩
  · simp [V1.GetModelData, V1.getModelAux, asMap, lookupStr_objInsert_self]
  · rintro t₁ t₂ rest m' rfl hnone hupd
    simp only [V1.UpdateModelData, V1.applyTransformation, hnone] at hupd
    cases hupd
    exact getModelData_setMapInner _ _ _ (by simp)
  · rintro t₁ t₂ rest m' tdef impl ps rvs r rfl hsome hparse hps heval hupd
    simp only [V1.UpdateModelData, V1.applyTransformation, hsome, hparse,
      List.dropLast] at hupd hps
    simp only [hps, heval] at hupd
    cases hupd
    exact getModelData_setMapInner _ _ _ (by simp)

/-- C1 witness: the amended theorem applied at concrete inputs — a
two-token write with no transformation keeps the raw value, and a
two-token write whose transformation evaluates to `99` stores `99`. -/
theorem c1_write_read_raw_witness :
    V1.GetModelData [("a", .obj [("b", .num 1)])] ["a", "b"] = .ok (.num 1) ∧
    V1.GetModelData [("a", .obj [("b", .num 99)])] ["a", "b"] = .ok (.num 99) := by
  constructor
  · exact (c1_write_read_raw evalInc [] [] "a" ["a", "b"] (.num 1)).2.1
      "a" "b" [] [("a", .obj [("b", .num 1)])] rfl rfl rfl
  · exact (c1_write_read_raw evalInc [] transfsAB "a" ["a", "b"] (.num 1)).2.2
      "a" "b" [] [("a", .obj [("b", .num 99)])] (.obj [("implementation", .str "inc")])
      "inc" [] [] (.num 99) rfl rfl rfl rfl rfl rfl

/-! ## C2 -/

/-- C2 counterexample.  The claim says: when the transform attempt of a
write fails, the raw value `v` stands at `p`.  With a transformation
defined at `a/b` and a bridge run that fails, `write(["a","b"], 5)`
still succeeds — but Go's `applyTransformation` returns `nil` on a
script failure and `UpdateModelData` stores that first return value, so
`readRaw` afterwards yields JSON `null`, not the raw `5`. -/
theorem c2_counterexample :
    lookupStr (goJoin ["a", "b"]) transfsAB = some (.obj [("implementation", .str "inc")]) ∧
    evalNone "inc" (bindParams [("self", .num 5)] []) = none ∧
    V1.UpdateModelData evalNone [] transfsAB ["a", "b"] (.num 5)
      = .ok [("a", .obj [("b", .null)])] ∧
    V1.GetModelData [("a", .obj [("b", .null)])] ["a", "b"] = .ok .null ∧
    JValue.null ≠ JValue.num 5 := by
  refine ⟨rfl, rfl, rfl, rfl, ?_⟩
  intro h
  cases h

/-- C2 (amended): a write whose transform attempt fails never fails the
write — the failure is only logged.  The raw value stands when no
transformation is defined at `p`; but when a transformation IS defined
at `p` (two or more tokens) and the attempt fails at ANY stage —
parsing the stored definition, resolving a declared parameter, or
running the bridge — the stored value is Go's nil (JSON `null`), not
the raw `v`. -/
theorem c2_write_failure_nonfatal (eval : Evaluator) (m transfs : List (String × JValue))
    (toks : List String) (v : JValue) :
    (∀ t₁ t₂ rest m' tdef e, toks = t₁ :: t₂ :: rest →
      lookupStr (goJoin toks) transfs = some tdef →
      parseTransformation (goJoin toks) tdef = .error e →
      V1.UpdateModelData eval m transfs toks v = .ok m' →
      V1.GetModelData m' toks = .ok .null)
    ∧
    (∀ t₁ t₂ rest m' tdef impl ps e, toks = t₁ :: t₂ :: rest →
      lookupStr (goJoin toks) transfs = some tdef →
      parseTransformation (goJoin toks) tdef = .ok (impl, ps) →
      V1.resolveParams (V1.ensurePath m toks.dropLast) ps = .error e →
      V1.UpdateModelData eval m transfs toks v = .ok m' →
      V1.GetModelData m' toks = .ok .null)
    ∧
    (∀ t₁ t₂ rest m' tdef impl ps rvs, toks = t₁ :: t₂ :: rest →
      lookupStr (goJoin toks) transfs = some tdef →
      parseTransformation (goJoin toks) tdef = .ok (impl, ps) →
      V1.resolveParams (V1.ensurePath m toks.dropLast) ps = .ok rvs →
      eval impl (bindParams [("self", v)] rvs) = none →
      V1.UpdateModelData eval m transfs toks v = .ok m' →
      V1.GetModelData m' toks = .ok .null)
    ∧
    (∀ t₁ t₂ rest m', toks = t₁ :: t₂ :: rest →
      lookupStr (goJoin toks) transfs = none →
      V1.UpdateModelData eval m transfs toks v = .ok m' →
      V1.GetModelData m' toks = .ok v) := by
  refine ⟨?_, ?_, ?_, ?_⟩
  · rintro t₁ t₂ rest m' tdef e rfl hsome hparse hupd
    simp only [V1.UpdateModelData, V1.applyTransformation, hsome, hparse] at hupd
    cases hupd
    exact getModelData_setMapInner _ _ _ (by simp)
  · rintro t₁ t₂ rest m' tdef impl ps e rfl hsome hparse hps hupd
    simp only [V1.UpdateModelData, V1.applyTransformation, hsome, hparse,
      List.dropLast] at hupd hps
    simp only [hps] at hupd
    cases hupd
    exact getModelData_setMapInner _ _ _ (by simp)
  · rintro t₁ t₂ rest m' tdef impl ps rvs rfl hsome hparse hps heval hupd
    simp only [V1.UpdateModelData, V1.applyTransformation, hsome, hparse,
      List.dropLast] at hupd hps
    simp only [hps, heval] at hupd
    cases hupd
    exact getModelData_setMapInner _ _ _ (by simp)
  · rintro t₁ t₂ rest m' rfl hnone hupd
    simp only [V1.UpdateModelData, V1.applyTransformation, hnone] at hupd
    cases hupd
    exact getModelData_setMapInner _ _ _ (by simp)

/-- C2 witness: the amended theorem applied at concrete inputs — a
malformed definition at `a/b` (parse failure), a definition whose
parameter reads a missing path (resolution failure), and a definition
whose bridge run fails (evaluation failure) each leave `null` stored,
and with no transformation the raw `5` stands. -/
theorem c2_write_failure_nonfatal_witness :
    (V1.UpdateModelData evalNone [] transfsBad ["a", "b"] (.num 5)
      = .ok [("a", .obj [("b", .null)])] ∧
     V1.GetModelData [("a", .obj [("b", .null)])] ["a", "b"] = .ok .null) ∧
    (V1.UpdateModelData evalInc [] transfsParam ["a", "b"] (.num 5)
      = .ok [("a", .obj [("b", .null)])] ∧
     V1.GetModelData [("a", .obj [("b", .null)])] ["a", "b"] = .ok .null) ∧
    (V1.UpdateModelData evalNone [] transfsAB ["a", "b"] (.num 5)
      = .ok [("a", .obj [("b", .null)])] ∧
     V1.GetModelData [("a", .obj [("b", .null)])] ["a", "b"] = .ok .null) ∧
    (V1.UpdateModelData evalNone [] [] ["a", "b"] (.num 5)
      = .ok [("a", .obj [("b", .num 5)])] ∧
     V1.GetModelData [("a", .obj [("b", .num 5)])] ["a", "b"] = .ok (.num 5)) := by
  refine ⟨⟨rfl, ?_⟩, ⟨rfl, ?_⟩, ⟨rfl, ?_⟩, ⟨rfl, ?_⟩⟩
  · exact (c2_write_failure_nonfatal evalNone [] transfsBad ["a", "b"] (.num 5)).1
      "a" "b" [] [("a", .obj [("b", .null)])] (.str "bad") (.invalidFormat "a/b")
      rfl rfl rfl rfl
  · exact (c2_write_failure_nonfatal evalInc [] transfsParam ["a", "b"] (.num 5)).2.1
      "a" "b" [] [("a", .obj [("b", .null)])]
      (.obj [("implementation", .str "inc"), ("parameters", .obj [("p", .str "nope")])])
      "inc" [("p", "nope")] (.paramFail "p" (.notFound "nope"))
      rfl rfl rfl rfl rfl
  · exact (c2_write_failure_nonfatal evalNone [] transfsAB ["a", "b"] (.num 5)).2.2.1
      "a" "b" [] [("a", .obj [("b", .null)])] (.obj [("implementation", .str "inc")])
      "inc" [] [] rfl rfl rfl rfl rfl rfl
  · exact (c2_write_failure_nonfatal evalNone [] [] ["a", "b"] (.num 5)).2.2.2
      "a" "b" [] [("a", .obj [("b", .num 5)])] rfl rfl rfl

/-! ## C8 -/

/-- C8 counterexample.  The claim says the raw get fails with a
NotTraversable-style error exactly when an intermediate token addresses
a scalar.  The tree-helper `GetMapData` — the raw get of the cached
engine — does not: on `{"a": 5}` with path `a/b` it SUCCEEDS, returning
Go's zero-value nil map (`return currentMap, nil`), which serializes to
JSON `null`. -/
theorem c8_counterexample :
    GetMapData [("a", .num 5)] ["a", "b"] = .ok .nilMap := rfl

/-- C8 (amended): the V1 raw get behaves exactly as claimed — it fails
`PathNotFound`-style precisely when the scan meets a mapping lacking
the next token, fails `NotTraversable`-style precisely when the scan
meets a non-mapping with tokens remaining, and always succeeds on the
root path with the whole document.  The tree-helper `GetMapData`
differs in exactly one point: where V1 reports NotTraversable it
instead silently succeeds with Go's nil map. -/
theorem c8_raw_get_errors :
    (∀ (m : List (String × JValue)) (p : List String),
      V1.GetModelData m p =
        (match firstObstruction (.obj m) p with
         | .value w => .ok w
         | .absent t => .error (.notFound t)
         | .nonMapping t => .error (.notObject t)))
    ∧
    (∀ (m : List (String × JValue)) (p : List String),
      GetMapData m p =
        (match firstObstruction (.obj m) p with
         | .value w => .ok w
         | .absent t => .error (.notFound t)
         | .nonMapping t => .ok .nilMap))
    ∧
    (∀ m : List (String × JValue),
      V1.GetModelData m [] = .ok (.obj m) ∧ GetMapData m [] = .ok (.obj m)) := by
  refine ⟨?_, ?_, ?_⟩
  · intro m p
    exact getModelAux_firstObstruction p (.obj m)
  · intro m p
    exact getMapAux_firstObstruction p (.obj m)
  · intro m
    exact ⟨rfl, rfl⟩

/-! ## V2: the cached engine (cycle guard, transformation cache,
nested overlay).

State threading: Go's methods mutate the receiver; here every function
takes and returns the whole state `DM`.  Go's `applyNestedTransformations`
makes a SHALLOW copy of the sub-mapping it decorates, so the copy's
entries alias the model's own nested maps; a deep `SetMapData` into the
copy therefore writes into the model.  The embedding tracks, for each
top-level key of the copy, whether the entry still aliases the model's
object (`Slot.shared` — its current value is read from the model) or is
a freshly created value (`Slot.fresh v`).  A deep write through a
shared entry is mirrored into the model (`modelReplaceAt`), exactly as
the pointer write does in Go. -/

namespace V2

/-- The mutable state of the cached `DataModel`: the raw tree, the
transformation registry, the transformation cache and the cycle guard
(`processingPaths`). -/
structure DM where
  model : List (String × JValue)
  transfs : List (String × JValue)
  cache : List (String × JValue)
  processing : List String

/-- One top-level entry of the shallow result copy: still aliasing the
model's object at the read point, or a fresh value. -/
inductive Slot where
  | shared : Slot
  | fresh (v : JValue) : Slot

/-- Lookup in the slot list. -/
def slotLookup (k : String) : List (String × Slot) → Option Slot
  | [] => none
  | (k', s) :: rest => if k' = k then some s else slotLookup k rest

/-- Insert into the slot list (replace-or-append, like `objInsert`). -/
def slotInsert (k : String) (s : Slot) : List (String × Slot) → List (String × Slot)
  | [] => [(k, s)]
  | (k', s') :: rest =>
    if k' = k then (k, s) :: rest
    else (k', s') :: slotInsert k s rest

/-- The current value stored in the model at a token path (successful
`GetMapData` navigation), used to read through a shared slot. -/
def modelValueAt (m : List (String × JValue)) (toks : List String) : Option JValue :=
  match GetMapData m toks with
  | .ok v => some v
  | .error _ => none

/-- Replace the value at an existing map chain in the model (the image
of a pointer write into a map object reachable from the model). -/
def modelReplaceAt (m : List (String × JValue)) : List String → JValue → List (String × JValue)
  | [], _ => m
  | [t], v => objInsert t v m
  | t :: t' :: rest, v =>
    match lookupStr t m with
    | some w =>
      match asMap w with
      | some ws => objInsert t (.obj (modelReplaceAt ws (t' :: rest) v)) m
      | none => m
    | none => m

/-- `SetMapData(&resultCopy, subPathTokens, value)` on the shallow
copy, with aliasing: a write of depth ≥ 2 through a top-level entry
that still aliases the model mutates the model in place (both the copy
and the raw tree see it); every other write stays local to the copy. -/
def setSlots (readToks : List String) (slots : List (String × Slot)) (d : DM)
    (subToks : List String) (v : JValue) : List (String × Slot) × DM :=
  match subToks with
  | [] =>
    -- root write into the copy: replaces the local map variable by the
    -- (fresh) object `v`; a non-object is a (discarded) error
    match asMap v with
    | some fields => (fields.map (fun kv => (kv.1, Slot.fresh kv.2)), d)
    | none => (slots, d)
  | [t] => (slotInsert t (.fresh v) slots, d)
  | t :: t' :: rest =>
    match slotLookup t slots with
    | some .shared =>
      match modelValueAt d.model (readToks ++ [t]) with
      | some w =>
        match asMap w with
        | some ws =>
          -- descend into the shared (model-owned) map: the write lands
          -- in the raw tree and remains visible through the copy
          let m' := modelReplaceAt d.model (readToks ++ [t]) (.obj (setMapInner ws (t' :: rest) v))
          (slots, { d with model := m' })
        | none =>
          (slotInsert t (.fresh (.obj (setMapInner [] (t' :: rest) v))) slots, d)
      | none =>
        (slotInsert t (.fresh (.obj (setMapInner [] (t' :: rest) v))) slots, d)
    | some (.fresh w) =>
      match asMap w with
      | some ws => (slotInsert t (.fresh (.obj (setMapInner ws (t' :: rest) v))) slots, d)
      | none => (slotInsert t (.fresh (.obj (setMapInner [] (t' :: rest) v))) slots, d)
    | none => (slotInsert t (.fresh (.obj (setMapInner [] (t' :: rest) v))) slots, d)

/-- Turn the (possibly overlaid) shallow copy back into a value:
shared entries read the model's current sub-mapping at the read point,
fresh entries carry their own value. -/
def materializeSlots (m : List (String × JValue)) (readToks : List String)
    (slots : List (String × Slot)) : List (String × JValue) :=
  let fields := match modelValueAt m readToks with
                | some w => (asMap w).getD []
                | none => []
  slots.map (fun ks =>
    match ks.2 with
    | .shared => (ks.1, (lookupStr ks.1 fields).getD .null)
    | .fresh v => (ks.1, v))

mutual

/-- `applyTransformation(path)` of the cached engine: unconditional
cache hit first; cycle-guard check; guard marking with removal on every
exit; raw fallback when no transformation is registered; otherwise
parse, bind `self` from the raw tree (absence tolerated), resolve
parameters through the resolved read, evaluate, cache the result.
`fuel` bounds the recursion depth (Go relies on the cycle guard). -/
def applyTransformation (eval : Evaluator) (fuel : Nat) (d : DM) (path : String) :
    Except Err JValue × DM :=
  match fuel with
  | 0 => (.error .fuelOut, d)
  | fuel + 1 =>
    match lookupStr path d.cache with
    | some c => (.ok c, d)
    | none =>
      if path ∈ d.processing then (.error (.circular path), d)
      else
        let d₁ : DM := { d with processing := path :: d.processing }
        let toks := goSplit path
        match lookupStr path d₁.transfs with
        | none =>
          ((GetMapData d₁.model toks : Except Err JValue),
           { d₁ with processing := d₁.processing.erase path })
        | some tdef =>
          match parseTransformation path tdef with
          | .error e => (.error e, { d₁ with processing := d₁.processing.erase path })
          | .ok (impl, ps) =>
            let selfStep : Except Err JValue :=
              match GetMapData d₁.model toks with
              | .ok v => .ok v
              | .error e => if e.isNotFound then .ok .null else .error (.selfFail e)
            match selfStep with
            | .error e => (.error e, { d₁ with processing := d₁.processing.erase path })
            | .ok selfV =>
              match resolveParams eval fuel d₁ ps with
              | (.error e, d₂) => (.error e, { d₂ with processing := d₂.processing.erase path })
              | (.ok rvs, d₂) =>
                match eval impl (bindParams [("self", selfV)] rvs) with
                | none => (.error .evalFail, { d₂ with processing := d₂.processing.erase path })
                | some r =>
                  (.ok r, { d₂ with cache := objInsert path r d₂.cache,
                                    processing := d₂.processing.erase path })

/-- The parameter loop of `applyTransformation`: each source path is
resolved through the resolved (transforming) read. -/
def resolveParams (eval : Evaluator) (fuel : Nat) (d : DM) :
    List (String × String) → Except Err (List (String × JValue)) × DM
  | [] => (.ok [], d)
  | (n, p) :: rest =>
    match fuel with
    | 0 => (.error .fuelOut, d)
    | fuel + 1 =>
      match GetModelData eval fuel d (goSplit p) false with
      | (.error e, d') => (.error (.paramFail n e), d')
      | (.ok v, d') =>
        match resolveParams eval fuel d' rest with
        | (.error e, d'') => (.error e, d'')
        | (.ok rvs, d'') => (.ok ((n, v) :: rvs), d'')

/-- `GetModelData(pathTokens, raw)` of the cached engine: the raw read
returns the tree-store navigation unchanged; the resolved read hands
the navigation result (nil on error) to `applyNestedTransformations`. -/
def GetModelData (eval : Evaluator) (fuel : Nat) (d : DM) (toks : List String)
    (raw : Bool) : Except Err JValue × DM :=
  match fuel with
  | 0 => (.error .fuelOut, d)
  | fuel + 1 =>
    match GetMapData d.model toks with
    | .error e =>
      if raw then (.error e, d)
      else applyNestedTransformations eval fuel d toks (goJoin toks) .null
    | .ok rawData =>
      if raw then (.ok rawData, d)
      else applyNestedTransformations eval fuel d toks (goJoin toks) rawData

/-- `applyNestedTransformations(path, rawData)`: a non-mapping resolves
through `applyTransformation`; a mapping is shallow-copied and every
registered transformation whose path has `path` as a string prefix is
overlaid at its relative tokens.  `readToks` is the token address of
`rawData` inside the model, standing for Go's pointer identity of the
shared sub-maps (the string `path` is what the Go function receives and
uses for prefix matching and relative-token computation). -/
def applyNestedTransformations (eval : Evaluator) (fuel : Nat) (d : DM)
    (readToks : List String) (path : String) (rawData : JValue) :
    Except Err JValue × DM :=
  match fuel with
  | 0 => (.error .fuelOut, d)
  | fuel + 1 =>
    match asMap rawData with
    | none => applyTransformation eval fuel d path
    | some fields =>
      let slots₀ := fields.map (fun kv => (kv.1, Slot.shared))
      match overlayLoop eval fuel d readToks path slots₀ d.transfs with
      | (slots', d') => (.ok (.obj (materializeSlots d'.model readToks slots')), d')

/-- The `for transformPath := range d.Transformations` loop: resolve
each prefix-matching transformation (errors only logged — the zero
value nil is overlaid in that case) and `SetMapData` it into the copy
at its relative tokens. -/
def overlayLoop (eval : Evaluator) (fuel : Nat) (d : DM) (readToks : List String)
    (path : String) (slots : List (String × Slot)) :
    List (String × JValue) → List (String × Slot) × DM
  | [] => (slots, d)
  | (tp, _) :: rest =>
    match fuel with
    | 0 => (slots, d)
    | fuel + 1 =>
      if goHasPre tp path then
        match applyTransformation eval fuel d tp with
        | (r, d') =>
          let tv := match r with
                    | .ok v => v
                    | .error _ => .null
          match setSlots readToks slots d' (GetStrTokens tp path) tv with
          | (slots', d'') => overlayLoop eval fuel d'' readToks path slots' rest
      else overlayLoop eval fuel d readToks path slots rest

end

/-- The value bound to `self` by `applyTransformation`: the raw tree
value at the path when present, Go's nil otherwise (all raw-navigation
errors of `GetMapData` are "not found" errors, which are tolerated). -/
def selfBinding (d : DM) (path : String) : JValue :=
  match GetMapData d.model (goSplit path) with
  | .ok v => v
  | .error _ => .null

/-- `ClearCache(paths...)`: with no arguments the whole transformation
cache is dropped, otherwise exactly the given keys. -/
def ClearCache (d : DM) (paths : List String) : DM :=
  match paths with
  | [] => { d with cache := [] }
  | _ :: _ => { d with cache := paths.foldl (fun c p => objErase p c) d.cache }

/-- `SetModelData(pathTokens, value)`: clear the cache entry exactly at
the joined path, then write raw through `SetMapData` (cache clearing
happens even when the root write is rejected). -/
def SetModelData (d : DM) (toks : List String) (v : JValue) : Option Err × DM :=
  let d₁ := ClearCache d [goJoin toks]
  match SetMapData d₁.model toks v with
  | .ok m' => (none, { d₁ with model := m' })
  | .error e => (some e, d₁)

end V2

/-! ## C5 -/

/-- C5: `SetModelData` (the raw write of the cached engine) removes
exactly the Transformation Cache entry keyed by the written path; the
entry at any other key — ancestor, descendant, or a transformation that
merely consumes the written path as a parameter — still serves its
pre-write value. -/
theorem c5_cache_invalidation_exact (d : V2.DM) (toks : List String) (v : JValue)
    (q : String) (h : q ≠ goJoin toks) :
    lookupStr (goJoin toks) ((V2.SetModelData d toks v).2).cache = none ∧
    lookupStr q ((V2.SetModelData d toks v).2).cache = lookupStr q d.cache := by
  have hc : ((V2.SetModelData d toks v).2).cache = objErase (goJoin toks) d.cache := by
    simp only [V2.SetModelData, V2.ClearCache, List.foldl_cons, List.foldl_nil]
    cases h2 : SetMapData d.model toks v with
    | ok m' => simp [h2]
    | error e => simp [h2]
  rw [hc]
  exact ⟨lookupStr_objErase_self _ _, lookupStr_objErase_ne _ _ _ h⟩

/-- C5 witness: with cache entries at the written path `a/b`, at its
ancestor `a`, and at the unrelated consumer path `x`, writing to `a/b`
removes exactly the `a/b` entry. -/
theorem c5_cache_invalidation_exact_witness :
    ("x" : String) ≠ goJoin ["a", "b"] ∧ ("a" : String) ≠ goJoin ["a", "b"] ∧
    (lookupStr (goJoin ["a", "b"])
      ((V2.SetModelData ⟨[], [], [("a/b", .num 7), ("a", .num 1), ("x", .num 2)], []⟩
        ["a", "b"] (.num 0)).2).cache = none ∧
     lookupStr "x"
      ((V2.SetModelData ⟨[], [], [("a/b", .num 7), ("a", .num 1), ("x", .num 2)], []⟩
        ["a", "b"] (.num 0)).2).cache
        = lookupStr "x" [("a/b", .num 7), ("a", .num 1), ("x", .num 2)]) := by
  refine ⟨by decide, by decide, ?_⟩
  have h := c5_cache_invalidation_exact
    ⟨[], [], [("a/b", .num 7), ("a", .num 1), ("x", .num 2)], []⟩ ["a", "b"] (.num 0)
    "x" (by decide)
  exact ⟨h.1, h.2⟩

/-! ## C4 -/

theorem applyTransformation_ok_cached (eval : Evaluator) (fuel : Nat) (d d₁ : V2.DM)
    (p : String) (tdef v : JValue)
    (hdef : lookupStr p d.transfs = some tdef)
    (h1 : V2.applyTransformation eval fuel d p = (.ok v, d₁)) :
    lookupStr p d₁.cache = some v := by
  cases fuel with
  | zero => simp [V2.applyTransformation] at h1
  | succ n =>
    rw [V2.applyTransformation] at h1
    cases hcache : lookupStr p d.cache with
    | some c =>
      rw [hcache] at h1
      injection h1 with hA hB
      injection hA with hA'
      subst hA'
      subst hB
      exact hcache
    | none =>
      rw [hcache] at h1
      by_cases hp : p ∈ d.processing
      · simp only [if_pos hp] at h1
        simp at h1
      · simp only [if_neg hp] at h1
        rw [hdef] at h1
        split at h1
        · rename_i heq
          exact absurd heq (by simp)
        · split at h1
          · simp at h1
          · split at h1
            · simp at h1
            · split at h1
              · simp at h1
              · split at h1
                · simp at h1
                · injection h1 with hA hB
                  injection hA with hA'
                  subst hA'
                  subst hB
                  exact lookupStr_objInsert_self _ _ _

/-- C4: with a transformation defined at `p`, a successful resolve
stores its value in the Transformation Cache, and a second resolve with
no intervening write is an unconditional cache hit: it returns the
identical value and leaves the whole state untouched (no re-evaluation,
hence no recomputation side effects). -/
theorem c4_resolve_twice_cached (eval : Evaluator) (fuel fuel' : Nat) (d d₁ : V2.DM)
    (p : String) (tdef v : JValue)
    (hdef : lookupStr p d.transfs = some tdef)
    (h1 : V2.applyTransformation eval fuel d p = (.ok v, d₁)) :
    V2.applyTransformation eval (fuel' + 1) d₁ p = (.ok v, d₁) := by
  have hc := applyTransformation_ok_cached eval fuel d d₁ p tdef v hdef h1
  rw [V2.applyTransformation, hc]

/-- Concrete evaluator for the cached-engine fixtures: implementation
`"seven"` evaluates to `7`. -/
def evalSeven : Evaluator := fun impl _ => if impl = "seven" then some (.num 7) else none

/-- Fixture: raw `{a: {b: 1}}` with a transformation at `a/b`. -/
def dmFour : V2.DM :=
  ⟨[("a", .obj [("b", .num 1)])], [("a/b", .obj [("implementation", .str "seven")])], [], []⟩

/-- `dmFour` after one successful resolve of `a/b` (the result `7` is
cached). -/
def dmFour' : V2.DM :=
  ⟨[("a", .obj [("b", .num 1)])], [("a/b", .obj [("implementation", .str "seven")])],
   [("a/b", .num 7)], []⟩

/-- C4 witness: resolving `a/b` once yields `7` and caches it; the
theorem then gives that a second resolve returns the same `7` without
changing the state. -/
theorem c4_resolve_twice_cached_witness :
    V2.applyTransformation evalSeven 3 dmFour "a/b" = (.ok (.num 7), dmFour') ∧
    V2.applyTransformation evalSeven 1 dmFour' "a/b" = (.ok (.num 7), dmFour') := by
  constructor
  · rfl
  · exact c4_resolve_twice_cached evalSeven 3 0 dmFour dmFour' "a/b"
      (.obj [("implementation", .str "seven")]) (.num 7) rfl rfl

/-! ## Frame invariants of the cached engine (for the cycle-guard claim) -/

namespace V2

/-- Frame relation between the states before and after an engine
operation: the cycle guard is restored, the transformation registry is
untouched, and the cache binding of every path currently under
resolution is unchanged. -/
def framePreserved (d d' : DM) : Prop :=
  d'.processing = d.processing ∧ d'.transfs = d.transfs ∧
  ∀ q, q ∈ d.processing → lookupStr q d'.cache = lookupStr q d.cache

theorem framePreserved_refl (d : DM) : framePreserved d d :=
  ⟨rfl, rfl, fun _ _ => rfl⟩

theorem framePreserved_trans {d d' d'' : DM}
    (h1 : framePreserved d d') (h2 : framePreserved d' d'') : framePreserved d d'' := by
  obtain ⟨p1, t1, c1⟩ := h1
  obtain ⟨p2, t2, c2⟩ := h2
  refine ⟨p2.trans p1, t2.trans t1, fun q hq => ?_⟩
  have hq' : q ∈ d'.processing := by rw [p1]; exact hq
  rw [c2 q hq']
  exact c1 q hq

/-- Exiting `applyTransformation`: the deferred guard removal restores
the pre-call guard, and the only cache change is at the resolved path
itself (if any), which is not under resolution in the caller. -/
theorem framePreserved_finish (d d₂ : DM) (path : String)
    (hp : path ∉ d.processing)
    (hf : framePreserved { d with processing := path :: d.processing } d₂)
    (cset : List (String × JValue))
    (hcset : cset = d₂.cache ∨ ∃ r, cset = objInsert path r d₂.cache) :
    framePreserved d ⟨d₂.model, d₂.transfs, cset, d₂.processing.erase path⟩ := by
  obtain ⟨p1, t1, c1⟩ := hf
  refine ⟨?_, t1, ?_⟩
  · simp only [p1]
    exact List.erase_cons_head path d.processing
  · intro q hq
    have hq1 : q ∈ ({ d with processing := path :: d.processing } : DM).processing :=
      List.mem_cons_of_mem path hq
    have hqp : q ≠ path := fun h => hp (h ▸ hq)
    rcases hcset with h | ⟨r, h⟩
    · rw [h]
      exact c1 q hq1
    · rw [h, lookupStr_objInsert_ne path q r d₂.cache hqp]
      exact c1 q hq1

/-- `setSlots` only ever modifies the model component of the state. -/
theorem setSlots_frame (rt : List String) (slots : List (String × Slot)) (d : DM)
    (subToks : List String) (v : JValue) :
    (setSlots rt slots d subToks v).2.processing = d.processing ∧
    (setSlots rt slots d subToks v).2.transfs = d.transfs ∧
    (setSlots rt slots d subToks v).2.cache = d.cache := by
  unfold setSlots
  rcases subToks with _ | ⟨t, _ | ⟨t', rest⟩⟩
  · cases asMap v <;> simp
  · simp
  · cases hsl : slotLookup t slots with
    | none => simp [hsl]
    | some s =>
      cases s with
      | shared =>
        cases hmv : modelValueAt d.model (rt ++ [t]) with
        | none => simp [hsl, hmv]
        | some w => cases ham : asMap w <;> simp [hsl, hmv, ham]
      | fresh w => cases ham : asMap w <;> simp [hsl, ham]

theorem stateInvAll (eval : Evaluator) : ∀ fuel : Nat,
    (∀ d path, framePreserved d (applyTransformation eval fuel d path).2)
    ∧ (∀ d ps, framePreserved d (resolveParams eval fuel d ps).2)
    ∧ (∀ d toks raw, framePreserved d (GetModelData eval fuel d toks raw).2)
    ∧ (∀ d rt p rd, framePreserved d (applyNestedTransformations eval fuel d rt p rd).2)
    ∧ (∀ d rt p slots tps, framePreserved d (overlayLoop eval fuel d rt p slots tps).2) := by
  intro fuel
  induction fuel with
  | zero =>
    refine ⟨?_, ?_, ?_, ?_, ?_⟩
    · intro d path
      exact framePreserved_refl d
    · intro d ps
      cases ps with
      | nil => exact framePreserved_refl d
      | cons hd rest => exact framePreserved_refl d
    · intro d toks raw
      exact framePreserved_refl d
    · intro d rt p rd
      exact framePreserved_refl d
    · intro d rt p slots tps
      cases tps with
      | nil => exact framePreserved_refl d
      | cons hd rest => exact framePreserved_refl d
  | succ n ih =>
    obtain ⟨ihA, ihP, ihG, ihN, ihL⟩ := ih
    refine ⟨?_, ?_, ?_, ?_, ?_⟩
    · -- applyTransformation
      intro d path
      rw [applyTransformation]
      cases hcache : lookupStr path d.cache with
      | some c =>
        exact framePreserved_refl d
      | none =>
        by_cases hp : path ∈ d.processing
        · simp only [if_pos hp]
          exact framePreserved_refl d
        · simp only [if_neg hp]
          split
          · exact framePreserved_finish d _ path hp (framePreserved_refl _) _ (Or.inl rfl)
          · split
            · exact framePreserved_finish d _ path hp (framePreserved_refl _) _ (Or.inl rfl)
            · rename_i impl ps hparse
              split
              · exact framePreserved_finish d _ path hp (framePreserved_refl _) _ (Or.inl rfl)
              · split
                · rename_i e d₂ heq
                  have f1 := ihP ⟨d.model, d.transfs, d.cache, path :: d.processing⟩ ps
                  rw [heq] at f1
                  exact framePreserved_finish d d₂ path hp f1 _ (Or.inl rfl)
                · rename_i rvs d₂ heq
                  have f1 := ihP ⟨d.model, d.transfs, d.cache, path :: d.processing⟩ ps
                  rw [heq] at f1
                  split
                  · exact framePreserved_finish d d₂ path hp f1 _ (Or.inl rfl)
                  · rename_i r heval
                    exact framePreserved_finish d d₂ path hp f1 _ (Or.inr ⟨r, rfl⟩)
    · -- resolveParams
      intro d ps
      cases ps with
      | nil => exact framePreserved_refl d
      | cons hd rest =>
        obtain ⟨nm, pp⟩ := hd
        rw [resolveParams]
        rcases hG : GetModelData eval n d (goSplit pp) false with ⟨rg, dg⟩
        have f1 := ihG d (goSplit pp) false
        rw [hG] at f1
        cases rg with
        | error e => exact f1
        | ok v =>
          split
          · rename_i e d2 heq
            exact absurd heq (by simp)
          · rename_i rvs d2 heq
            injection heq with hv hd
            subst hd
            split
            · rename_i e2 d3 heq2
              have f2 := ihP dg rest
              rw [heq2] at f2
              exact framePreserved_trans f1 f2
            · rename_i rvs2 d3 heq2
              have f2 := ihP dg rest
              rw [heq2] at f2
              exact framePreserved_trans f1 f2
    · -- GetModelData
      intro d toks raw
      rw [GetModelData]
      cases hg : GetMapData d.model toks with
      | error e =>
        cases raw with
        | true => exact framePreserved_refl d
        | false =>
          simp only [Bool.false_eq_true, if_false]
          exact ihN d toks (goJoin toks) .null
      | ok rawData =>
        cases raw with
        | true => exact framePreserved_refl d
        | false =>
          simp only [Bool.false_eq_true, if_false]
          exact ihN d toks (goJoin toks) rawData
    · -- applyNestedTransformations
      intro d rt p rd
      rw [applyNestedTransformations]
      cases ha : asMap rd with
      | none =>
        exact ihA d p
      | some fields =>
        exact ihL d rt p (fields.map (fun kv => (kv.1, Slot.shared))) d.transfs
    · -- overlayLoop
      intro d rt p slots tps
      cases tps with
      | nil => exact framePreserved_refl d
      | cons hd rest =>
        obtain ⟨tp, tdefv⟩ := hd
        rw [overlayLoop]
        by_cases hpre : goHasPre tp p = true
        · simp only [if_pos hpre]
          have f1 := ihA d tp
          have fS := setSlots_frame rt slots (applyTransformation eval n d tp).2
              (GetStrTokens tp p)
              (match (applyTransformation eval n d tp).1 with
               | .ok v => v
               | .error _ => .null)
          have f2 : framePreserved (applyTransformation eval n d tp).2
              (setSlots rt slots (applyTransformation eval n d tp).2 (GetStrTokens tp p)
                (match (applyTransformation eval n d tp).1 with
                 | .ok v => v
                 | .error _ => .null)).2 := by
            refine ⟨fS.1, fS.2.1, fun q hq => ?_⟩
            rw [fS.2.2]
          have f3 := ihL (setSlots rt slots (applyTransformation eval n d tp).2 (GetStrTokens tp p)
                (match (applyTransformation eval n d tp).1 with
                 | .ok v => v
                 | .error _ => .null)).2 rt p
              (setSlots rt slots (applyTransformation eval n d tp).2 (GetStrTokens tp p)
                (match (applyTransformation eval n d tp).1 with
                 | .ok v => v
                 | .error _ => .null)).1 rest
          exact framePreserved_trans (framePreserved_trans f1 f2) f3
        · simp only [if_neg hpre]
          exact ihL d rt p slots rest

end V2

/-! ## C3 -/

theorem GetMapData_error_isNotFound (m : List (String × JValue)) (toks : List String)
    (e : Err) (h : GetMapData m toks = .error e) : e.isNotFound = true := by
  have hch := getMapAux_firstObstruction toks (.obj m)
  rw [GetMapData, hch] at h
  cases hfo : firstObstruction (.obj m) toks with
  | value w => rw [hfo] at h; simp at h
  | absent t =>
    rw [hfo] at h
    injection h with h'
    rw [← h']
    rfl
  | nonMapping t => rw [hfo] at h; simp at h

theorem applyTransformation_error_not_cached (eval : Evaluator) (fuel : Nat)
    (d dres : V2.DM) (A : String) (res : Except Err JValue)
    (hc : lookupStr A d.cache = none)
    (h1 : V2.applyTransformation eval fuel d A = (res, dres))
    (e : Err) (he : res = .error e) :
    lookupStr A dres.cache = none := by
  subst he
  cases fuel with
  | zero =>
    rw [V2.applyTransformation] at h1
    injection h1 with hA hB
    subst hB
    exact hc
  | succ n =>
    rw [V2.applyTransformation] at h1
    rw [hc] at h1
    by_cases hp : A ∈ d.processing
    · simp only [if_pos hp] at h1
      injection h1 with hA hB
      subst hB
      exact hc
    · simp only [if_neg hp] at h1
      split at h1
      · injection h1 with hA hB
        subst hB
        exact hc
      · split at h1
        · injection h1 with hA hB
          subst hB
          exact hc
        · rename_i impl ps hparse
          split at h1
          · injection h1 with hA hB
            subst hB
            exact hc
          · split at h1
            · rename_i e2 d₂ heq
              injection h1 with hA hB
              subst hB
              have f := (V2.stateInvAll eval n).2.1
                ⟨d.model, d.transfs, d.cache, A :: d.processing⟩ ps
              rw [heq] at f
              have h2 := f.2.2 A (List.mem_cons_self A d.processing)
              rw [h2]
              exact hc
            · rename_i rvs d₂ heq
              split at h1
              · injection h1 with hA hB
                subst hB
                have f := (V2.stateInvAll eval n).2.1
                  ⟨d.model, d.transfs, d.cache, A :: d.processing⟩ ps
                rw [heq] at f
                have h2 := f.2.2 A (List.mem_cons_self A d.processing)
                rw [h2]
                exact hc
              · injection h1 with hA hB
                exact absurd hA (by simp)

/-- C3: re-entering `resolve` on a path already in the Cycle Guard (for
example via a parameter bound to the path itself) fails with the
circular-dependency error; the guard entry is removed on every exit
(success or error); a failed resolution leaves no cache entry at the
path; and once the definition is fixed (a parseable, parameterless
definition whose evaluation succeeds) a subsequent resolve succeeds. -/
theorem c3_cycle_guard (eval : Evaluator) :
    (∀ fuel (d : V2.DM) A, lookupStr A d.cache = none → A ∈ d.processing →
      V2.applyTransformation eval (fuel + 1) d A = (.error (.circular A), d))
    ∧ (∀ fuel (d : V2.DM) A,
        ((V2.applyTransformation eval fuel d A).2).processing = d.processing)
    ∧ (∀ fuel (d : V2.DM) A e, lookupStr A d.cache = none →
        (V2.applyTransformation eval fuel d A).1 = .error e →
        lookupStr A ((V2.applyTransformation eval fuel d A).2).cache = none)
    ∧ (∀ (d : V2.DM) A tdef impl v, d.processing = [] → lookupStr A d.cache = none →
        lookupStr A d.transfs = some tdef →
        parseTransformation A tdef = .ok (impl, []) →
        eval impl [("self", V2.selfBinding d A)] = some v →
        (V2.applyTransformation eval 1 d A).1 = .ok v) := by
  refine ⟨?_, ?_, ?_, ?_⟩
  · intro fuel d A hc hp
    rw [V2.applyTransformation, hc, if_pos hp]
  · intro fuel d A
    exact ((V2.stateInvAll eval fuel).1 d A).1
  · intro fuel d A e hc he
    exact applyTransformation_error_not_cached eval fuel d
      (V2.applyTransformation eval fuel d A).2 A (V2.applyTransformation eval fuel d A).1
      hc rfl e he
  · intro d A tdef impl v hproc hc ht hparse heval
    rw [V2.applyTransformation, hc, hproc]
    rw [if_neg (by simp : ¬ A ∈ ([] : List String))]
    cases hg : GetMapData d.model (goSplit A) with
    | ok sv =>
      simp only [ht, hparse, hg, V2.resolveParams, bindParams, List.foldl]
      have hsb : V2.selfBinding d A = sv := by
        rw [V2.selfBinding, hg]
      rw [hsb] at heval
      rw [heval]
    | error ge =>
      have hnf := GetMapData_error_isNotFound _ _ _ hg
      simp only [ht, hparse, hg, hnf, if_pos, V2.resolveParams, bindParams, List.foldl]
      have hsb : V2.selfBinding d A = .null := by
        rw [V2.selfBinding, hg]
      rw [hsb] at heval
      rw [heval]

/-- C3 witness: with `c` already in the guard, resolving `c` fails with
the circular-dependency error and leaves the state untouched; after
installing a well-formed parameterless definition at `c` (the fixed
definition), resolution succeeds. -/
theorem c3_cycle_guard_witness :
    V2.applyTransformation evalSeven 5 ⟨[("c", .num 2)], [], [], ["c"]⟩ "c"
      = (.error (.circular "c"), ⟨[("c", .num 2)], [], [], ["c"]⟩) ∧
    (V2.applyTransformation evalSeven 1
      ⟨[("c", .num 2)], [("c", .obj [("implementation", .str "seven")])], [], []⟩ "c").1
      = .ok (.num 7) := by
  constructor
  · exact (c3_cycle_guard evalSeven).1 4 ⟨[("c", .num 2)], [], [], ["c"]⟩ "c" rfl (by simp)
  · exact (c3_cycle_guard evalSeven).2.2.2
      ⟨[("c", .num 2)], [("c", .obj [("implementation", .str "seven")])], [], []⟩ "c"
      (.obj [("implementation", .str "seven")]) "seven" (.num 7) rfl rfl rfl rfl rfl

/-! ## C6: helper lemmas -/

theorem splitSlashAux_ne_nil (cs : List Char) : ∀ acc, splitSlashAux cs acc ≠ [] := by
  induction cs with
  | nil => intro acc; simp [splitSlashAux]
  | cons c cs ih =>
    intro acc
    by_cases h : c = '/'
    · simp [splitSlashAux, h]
    · simpa [splitSlashAux, h] using ih (c :: acc)

theorem goJoin_splitSlashAux (cs : List Char) :
    ∀ acc, goJoin (splitSlashAux cs acc) = String.mk (acc.reverse ++ cs) := by
  induction cs with
  | nil => intro acc; simp [splitSlashAux, goJoin]
  | cons c cs ih =>
    intro acc
    by_cases h : c = '/'
    · subst h
      simp only [splitSlashAux, if_pos rfl]
      have ihx := ih []
      rcases hsp : splitSlashAux cs [] with _ | ⟨x, l⟩
      · exact absurd hsp (splitSlashAux_ne_nil cs [])
      · rw [hsp] at ihx
        rw [if_pos trivial, goJoin, ihx]
        show String.mk (acc.reverse ++ ['/'] ++ ([].reverse ++ cs))
          = String.mk (acc.reverse ++ '/' :: cs)
        simp
    · simp only [splitSlashAux, if_neg h]
      rw [ih (c :: acc)]
      simp

theorem goJoin_goSplit (s : String) : goJoin (goSplit s) = s := by
  rw [goSplit, goJoin_splitSlashAux]
  simp

theorem lookupStr_mem (k : String) (v : JValue) (l : List (String × JValue))
    (h : lookupStr k l = some v) : (k, v) ∈ l := by
  induction l with
  | nil => simp [lookupStr] at h
  | cons hd tl ih =>
    obtain ⟨k', v'⟩ := hd
    by_cases hk : k' = k
    · subst hk
      simp [lookupStr] at h
      simp [h]
    · simp only [lookupStr, if_neg hk] at h
      exact List.mem_cons_of_mem _ (ih h)

theorem lookupStr_of_mem_nodup (k : String) (v : JValue) (l : List (String × JValue))
    (hnd : l.Pairwise (fun a b => a.1 ≠ b.1)) (hm : (k, v) ∈ l) :
    lookupStr k l = some v := by
  induction l with
  | nil => simp at hm
  | cons hd tl ih =>
    obtain ⟨k', v'⟩ := hd
    rcases List.mem_cons.mp hm with h | h
    · injection h with h1 h2
      subst h1
      subst h2
      simp [lookupStr]
    · have hk : k' ≠ k := by
        have := (List.pairwise_cons.mp hnd).1 (k, v) h
        simpa using this
      simp only [lookupStr, if_neg hk]
      exact ih (List.pairwise_cons.mp hnd).2 h

theorem map_lookup_getD_self (all : List (String × JValue)) :
    ∀ fs : List (String × JValue),
      (∀ k v, (k, v) ∈ fs → lookupStr k all = some v) →
      fs.map (fun kv => (kv.1, (lookupStr kv.1 all).getD .null)) = fs := by
  intro fs
  induction fs with
  | nil => intro _; rfl
  | cons hd tl ih =>
    intro h
    obtain ⟨k, v⟩ := hd
    have hk := h k v (List.mem_cons_self _ _)
    simp only [List.map_cons, hk, Option.getD_some]
    rw [ih (fun k' v' hm => h k' v' (List.mem_cons_of_mem _ hm))]

theorem overlayLoop_no_match (eval : Evaluator) (p : String) :
    ∀ (tps : List (String × JValue)) (fuel : Nat) (d : V2.DM) (rt : List String)
      (slots : List (String × V2.Slot)),
      (∀ tp tv, (tp, tv) ∈ tps → goHasPre tp p = false) →
      V2.overlayLoop eval fuel d rt p slots tps = (slots, d) := by
  intro tps
  induction tps with
  | nil =>
    intro fuel d rt slots _
    cases fuel <;> rfl
  | cons hd rest ih =>
    intro fuel d rt slots h
    obtain ⟨tp, tv⟩ := hd
    cases fuel with
    | zero => rfl
    | succ n =>
      rw [V2.overlayLoop]
      have hb := h tp tv (List.mem_cons_self _ _)
      rw [hb]
      simp only [Bool.false_eq_true, if_false]
      exact ih n d rt slots (fun tp' tv' hm => h tp' tv' (List.mem_cons_of_mem _ hm))

theorem isPrefixOf_self_char (l : List Char) : l.isPrefixOf l = true := by
  induction l with
  | nil => rfl
  | cons c cs ih => simpa [List.isPrefixOf] using ih

theorem applyTransformation_no_transform (eval : Evaluator) (fuel : Nat) (d : V2.DM)
    (p : String) (H2 : lookupStr p d.cache = none) (H3 : p ∉ d.processing)
    (ht : lookupStr p d.transfs = none) :
    V2.applyTransformation eval (fuel + 1) d p = (GetMapData d.model (goSplit p), d) := by
  simp only [V2.applyTransformation, H2, if_neg H3, ht]
  rw [List.erase_cons_head]

theorem applyNested_no_match (eval : Evaluator) (fuel : Nat) (d : V2.DM)
    (rt : List String) (p : String) (fields : List (String × JValue))
    (H1 : ∀ tp tv, (tp, tv) ∈ d.transfs → goHasPre tp p = false) :
    V2.applyNestedTransformations eval (fuel + 1) d rt p (.obj fields)
      = (.ok (.obj (V2.materializeSlots d.model rt
          (fields.map (fun kv => (kv.1, V2.Slot.shared))))), d) := by
  rw [V2.applyNestedTransformations]
  simp only [asMap]
  rw [overlayLoop_no_match eval p d.transfs fuel d rt
    (fields.map (fun kv => (kv.1, V2.Slot.shared))) H1]

theorem materializeSlots_shared_id (m : List (String × JValue)) (rt : List String)
    (fields : List (String × JValue))
    (hm : V2.modelValueAt m rt = some (.obj fields))
    (hnd : fields.Pairwise (fun a b => a.1 ≠ b.1)) :
    V2.materializeSlots m rt (fields.map (fun kv => (kv.1, V2.Slot.shared))) = fields := by
  rw [V2.materializeSlots, hm]
  simp only [asMap, Option.getD_some, List.map_map]
  have hlook : ∀ k v, (k, v) ∈ fields → lookupStr k fields = some v :=
    fun k v hm' => lookupStr_of_mem_nodup k v fields hnd hm'
  refine Eq.trans (List.map_congr_left ?_) (map_lookup_getD_self fields fields hlook)
  intro a ha
  rfl

/-- C6 counterexample.  The claim says: whenever no transformation
applies, the resolved read equals the raw read.  On the model
`{"a": 5}` with an empty transformation table, reading `a/b` raw yields
Go's nil map (`GetMapData` returns the zero map when it meets the
scalar `5`; it serializes to JSON `null`), while the resolved read
hands that nil map to `applyNestedTransformations`, whose shallow copy
of it is a fresh EMPTY map (serializing to `{}`).  The two reads return
different values. -/
theorem c6_counterexample :
    (V2.GetModelData evalNone 9 ⟨[("a", .num 5)], [], [], []⟩ ["a", "b"] true).1
      = .ok .nilMap ∧
    (V2.GetModelData evalNone 9 ⟨[("a", .num 5)], [], [], []⟩ ["a", "b"] false).1
      = .ok (.obj []) ∧
    JValue.nilMap ≠ JValue.obj [] := by
  refine ⟨rfl, rfl, ?_⟩
  intro h
  cases h

/-- C6 (amended): when no registered transformation path has `p` as a
string prefix (so no definition applies), the cache and guard are clean
at `p`, and the raw navigation does not hit Go's nil-map corner (it
neither returns the nil map nor yields a mapping with duplicate keys),
the resolved read is extensionally the raw read — same result, same
final state.  The nil-map corner is a genuine exception, witnessed by
the counterexample. -/
theorem c6_read_resolved_eq_raw (eval : Evaluator) (fuel : Nat) (d : V2.DM) (p : String)
    (H1 : ∀ tp tv, (tp, tv) ∈ d.transfs → goHasPre tp p = false)
    (H2 : lookupStr p d.cache = none)
    (H3 : p ∉ d.processing)
    (H4 : GetMapData d.model (goSplit p) ≠ .ok .nilMap)
    (H6 : ∀ fields, GetMapData d.model (goSplit p) = .ok (.obj fields) →
          fields.Pairwise (fun a b => a.1 ≠ b.1)) :
    V2.GetModelData eval (fuel + 3) d (goSplit p) false
      = V2.GetModelData eval (fuel + 3) d (goSplit p) true := by
  have hJS : goJoin (goSplit p) = p := goJoin_goSplit p
  have hTnone : lookupStr p d.transfs = none := by
    cases ht : lookupStr p d.transfs with
    | none => rfl
    | some tv =>
      have hm := lookupStr_mem p tv d.transfs ht
      have hfalse := H1 p tv hm
      rw [goHasPre, isPrefixOf_self_char] at hfalse
      cases hfalse
  cases hg : GetMapData d.model (goSplit p) with
  | error e =>
    have hR : V2.GetModelData eval (fuel + 3) d (goSplit p) true = (.error e, d) := by
      rw [V2.GetModelData, hg]
      rfl
    have hL : V2.GetModelData eval (fuel + 3) d (goSplit p) false = (.error e, d) := by
      rw [V2.GetModelData, hg]
      show V2.applyNestedTransformations eval (fuel + 2) d (goSplit p)
        (goJoin (goSplit p)) .null = (.error e, d)
      rw [hJS, V2.applyNestedTransformations]
      show V2.applyTransformation eval (fuel + 1) d p = (.error e, d)
      rw [applyTransformation_no_transform eval fuel d p H2 H3 hTnone, hg]
    rw [hL, hR]
  | ok w =>
    cases haw : asMap w with
    | none =>
      have hR : V2.GetModelData eval (fuel + 3) d (goSplit p) true = (.ok w, d) := by
        rw [V2.GetModelData, hg]
        rfl
      have hL : V2.GetModelData eval (fuel + 3) d (goSplit p) false = (.ok w, d) := by
        rw [V2.GetModelData, hg]
        show V2.applyNestedTransformations eval (fuel + 2) d (goSplit p)
          (goJoin (goSplit p)) w = (.ok w, d)
        rw [hJS, V2.applyNestedTransformations, haw]
        show V2.applyTransformation eval (fuel + 1) d p = (.ok w, d)
        rw [applyTransformation_no_transform eval fuel d p H2 H3 hTnone, hg]
      rw [hL, hR]
    | some fields =>
      have hw : w = .obj fields := by
        cases w <;> simp [asMap] at haw
        · exact absurd hg H4
        · rw [haw]
      subst hw
      have hR : V2.GetModelData eval (fuel + 3) d (goSplit p) true = (.ok (.obj fields), d) := by
        rw [V2.GetModelData, hg]
        rfl
      have hmv : V2.modelValueAt d.model (goSplit p) = some (.obj fields) := by
        rw [V2.modelValueAt, hg]
      have hL : V2.GetModelData eval (fuel + 3) d (goSplit p) false
          = (.ok (.obj fields), d) := by
        rw [V2.GetModelData, hg]
        show V2.applyNestedTransformations eval (fuel + 2) d (goSplit p)
          (goJoin (goSplit p)) (.obj fields) = (.ok (.obj fields), d)
        rw [hJS, applyNested_no_match eval (fuel + 1) d (goSplit p) p fields H1,
          materializeSlots_shared_id d.model (goSplit p) fields hmv (H6 fields hg)]
      rw [hL, hR]

/-- C6 witness: on the model `{"a": {"b": 1}}` with no transformations,
reading `a` resolved equals reading `a` raw. -/
theorem c6_read_resolved_eq_raw_witness :
    V2.GetModelData evalNone 9 ⟨[("a", .obj [("b", .num 1)])], [], [], []⟩ (goSplit "a") false
      = V2.GetModelData evalNone 9 ⟨[("a", .obj [("b", .num 1)])], [], [], []⟩ (goSplit "a") true := by
  exact c6_read_resolved_eq_raw evalNone 6 ⟨[("a", .obj [("b", .num 1)])], [], [], []⟩ "a"
    (by intro tp tv h; simp at h) rfl (by simp)
    (by intro h; cases h)
    (by intro fields h; injection h with h'; injection h' with h''; rw [← h'']; simp)

/-! ## C7 -/

/-- Fixture: raw `{a: {b: 1}}` with a slash-containing (relative depth
two from the root) transformation at `a/b`. -/
def dmSeven : V2.DM :=
  ⟨[("a", .obj [("b", .num 1)])], [("a/b", .obj [("implementation", .str "seven")])], [], []⟩

/-- C7 counterexample.  The claim says resolved reads never mutate the
raw tree.  Resolving the root of `{a: {b: 1}}` with a transformation
registered at `a/b` overlays through the SHALLOW copy: `SetMapData`
descends into the copy's entry `a`, which is the model's own nested
map, and writes `b = 7` into it.  The raw tree afterwards is
`{a: {b: 7}}` — the read mutated the model. -/
theorem c7_counterexample :
    ((V2.GetModelData evalSeven 9 dmSeven [] false).2).model
      = [("a", .obj [("b", .num 7)])] ∧
    ((V2.GetModelData evalSeven 9 dmSeven [] false).2).model ≠ dmSeven.model := by
  refine ⟨rfl, ?_⟩
  intro h
  rw [show ((V2.GetModelData evalSeven 9 dmSeven [] false).2).model
      = [("a", JValue.obj [("b", JValue.num 7)])] from rfl] at h
  rw [show dmSeven.model = [("a", JValue.obj [("b", JValue.num 1)])] from rfl] at h
  simp at h

/-- Transformation tables whose every definition path is slash-free
(single-token): such definitions always overlay at relative depth ≤ 1,
which never descends through a shared map. -/
def slashFreeT (tps : List (String × JValue)) : Prop :=
  ∀ tp tv, (tp, tv) ∈ tps → ('/' : Char) ∉ tp.data

theorem splitSlashAux_no_slash (cs : List Char) :
    ∀ acc, ('/' : Char) ∉ cs → splitSlashAux cs acc = [String.mk (acc.reverse ++ cs)] := by
  induction cs with
  | nil => intro acc _; simp [splitSlashAux]
  | cons c cs ih =>
    intro acc h
    have hc : ¬ (c = '/') := fun hh => h (hh ▸ List.mem_cons_self c cs)
    rw [splitSlashAux, if_neg hc, ih (c :: acc) (fun hm => h (List.mem_cons_of_mem c hm))]
    simp

theorem getStrTokens_short (s pre : String) (h : ('/' : Char) ∉ s.data) :
    GetStrTokens s pre = [] ∨ ∃ t, GetStrTokens s pre = [t] := by
  rw [GetStrTokens]
  set u := trimSlash (trimLeftCut s pre) with hu
  by_cases hz : u = ""
  · left
    simp [hz]
  · right
    refine ⟨u, ?_⟩
    have hsub : ('/' : Char) ∉ u.data := by
      intro hm
      apply h
      rw [hu, trimSlash, trimLeftCut] at hm
      have h1 := (List.dropWhile_sublist (· = '/')).mem (List.mem_reverse.mp hm)
      have h2 := (List.dropWhile_sublist (· = '/')).mem (List.mem_reverse.mp h1)
      exact (List.dropWhile_sublist (inCutset pre)).mem h2
    rw [if_neg hz, goSplit, splitSlashAux_no_slash u.data [] hsub]
    simp

/-- `setSlots` at relative depth ≤ 1 never touches the state. -/
theorem setSlots_short (rt : List String) (slots : List (String × V2.Slot)) (d : V2.DM)
    (v : JValue) (subToks : List String)
    (h : subToks = [] ∨ ∃ t, subToks = [t]) :
    (V2.setSlots rt slots d subToks v).2 = d := by
  rcases h with rfl | ⟨t, rfl⟩
  · rw [V2.setSlots]
    cases asMap v <;> rfl
  · rfl

theorem modelInvAll (eval : Evaluator) : ∀ fuel : Nat,
    (∀ (d : V2.DM) path, slashFreeT d.transfs →
      ((V2.applyTransformation eval fuel d path).2).model = d.model)
    ∧ (∀ (d : V2.DM) ps, slashFreeT d.transfs →
      ((V2.resolveParams eval fuel d ps).2).model = d.model)
    ∧ (∀ (d : V2.DM) toks raw, slashFreeT d.transfs →
      ((V2.GetModelData eval fuel d toks raw).2).model = d.model)
    ∧ (∀ (d : V2.DM) rt p rd, slashFreeT d.transfs →
      ((V2.applyNestedTransformations eval fuel d rt p rd).2).model = d.model)
    ∧ (∀ (d : V2.DM) rt p slots tps, slashFreeT d.transfs → slashFreeT tps →
      ((V2.overlayLoop eval fuel d rt p slots tps).2).model = d.model) := by
  intro fuel
  induction fuel with
  | zero =>
    refine ⟨?_, ?_, ?_, ?_, ?_⟩
    · intro d path _
      rfl
    · intro d ps _
      cases ps <;> rfl
    · intro d toks raw _
      rfl
    · intro d rt p rd _
      rfl
    · intro d rt p slots tps _ _
      cases tps <;> rfl
  | succ n ih =>
    obtain ⟨ihA, ihP, ihG, ihN, ihL⟩ := ih
    refine ⟨?_, ?_, ?_, ?_, ?_⟩
    · intro d path hsf
      rw [V2.applyTransformation]
      cases hcache : lookupStr path d.cache with
      | some c => rfl
      | none =>
        by_cases hp : path ∈ d.processing
        · simp only [if_pos hp]
        · simp only [if_neg hp]
          split
          · rfl
          · split
            · rfl
            · rename_i impl ps hparse
              split
              · rfl
              · split
                · rename_i e d₂ heq
                  have f1 := ihP ⟨d.model, d.transfs, d.cache, path :: d.processing⟩ ps hsf
                  rw [heq] at f1
                  exact f1
                · rename_i rvs d₂ heq
                  have f1 := ihP ⟨d.model, d.transfs, d.cache, path :: d.processing⟩ ps hsf
                  rw [heq] at f1
                  split
                  · exact f1
                  · exact f1
    · intro d ps hsf
      cases ps with
      | nil => rfl
      | cons hd rest =>
        obtain ⟨nm, pp⟩ := hd
        rw [V2.resolveParams]
        rcases hG : V2.GetModelData eval n d (goSplit pp) false with ⟨rg, dg⟩
        have f1 := ihG d (goSplit pp) false hsf
        rw [hG] at f1
        have hfr := (V2.stateInvAll eval n).2.2.1 d (goSplit pp) false
        rw [hG] at hfr
        have hsf' : slashFreeT dg.transfs := by
          intro tp tv hm
          apply hsf tp tv
          rw [← hfr.2.1]
          exact hm
        cases rg with
        | error e => exact f1
        | ok v =>
          split
          · rename_i e d2 heq
            exact absurd heq (by simp)
          · rename_i rvs d2 heq
            injection heq with hv hd2
            subst hd2
            split
            · rename_i e2 d3 heq2
              have f2 := ihP dg rest hsf'
              rw [heq2] at f2
              exact f2.trans f1
            · rename_i rvs2 d3 heq2
              have f2 := ihP dg rest hsf'
              rw [heq2] at f2
              exact f2.trans f1
    · intro d toks raw hsf
      rw [V2.GetModelData]
      cases hg : GetMapData d.model toks with
      | error e =>
        cases raw with
        | true => rfl
        | false =>
          simp only [Bool.false_eq_true, if_false]
          exact ihN d toks (goJoin toks) .null hsf
      | ok rawData =>
        cases raw with
        | true => rfl
        | false =>
          simp only [Bool.false_eq_true, if_false]
          exact ihN d toks (goJoin toks) rawData hsf
    · intro d rt p rd hsf
      rw [V2.applyNestedTransformations]
      cases ha : asMap rd with
      | none => exact ihA d p hsf
      | some fields =>
        exact ihL d rt p (fields.map (fun kv => (kv.1, V2.Slot.shared))) d.transfs hsf hsf
    · intro d rt p slots tps hsf htps
      cases tps with
      | nil => rfl
      | cons hd rest =>
        obtain ⟨tp, tdefv⟩ := hd
        rw [V2.overlayLoop]
        by_cases hpre : goHasPre tp p = true
        · simp only [if_pos hpre]
          have f1 := ihA d tp hsf
          have hfrA := (V2.stateInvAll eval n).1 d tp
          have hshort := getStrTokens_short tp p
            (htps tp tdefv (List.mem_cons_self _ _))
          have hS := setSlots_short rt slots (V2.applyTransformation eval n d tp).2
            (match (V2.applyTransformation eval n d tp).1 with
             | .ok v => v
             | .error _ => .null)
            (GetStrTokens tp p) hshort
          have hsf₂ : slashFreeT ((V2.setSlots rt slots (V2.applyTransformation eval n d tp).2
              (GetStrTokens tp p)
              (match (V2.applyTransformation eval n d tp).1 with
               | .ok v => v
               | .error _ => .null)).2).transfs := by
            rw [hS, hfrA.2.1]
            exact hsf
          have htps' : slashFreeT rest :=
            fun tp' tv' hm => htps tp' tv' (List.mem_cons_of_mem _ hm)
          have f3 := ihL (V2.setSlots rt slots (V2.applyTransformation eval n d tp).2
              (GetStrTokens tp p)
              (match (V2.applyTransformation eval n d tp).1 with
               | .ok v => v
               | .error _ => .null)).2 rt p
            (V2.setSlots rt slots (V2.applyTransformation eval n d tp).2
              (GetStrTokens tp p)
              (match (V2.applyTransformation eval n d tp).1 with
               | .ok v => v
               | .error _ => .null)).1 rest hsf₂ htps'
          have h2 : ((V2.setSlots rt slots (V2.applyTransformation eval n d tp).2
              (GetStrTokens tp p)
              (match (V2.applyTransformation eval n d tp).1 with
               | .ok v => v
               | .error _ => .null)).2).model = d.model := by
            rw [hS]
            exact f1
          exact f3.trans h2
        · simp only [if_neg hpre]
          exact ihL d rt p slots rest hsf
            (fun tp' tv' hm => htps tp' tv' (List.mem_cons_of_mem _ hm))

/-- C7 (amended): the resolved read never mutates the raw tree PROVIDED
every registered transformation path is slash-free (single-token), so
every overlay lands at relative depth ≤ 1 and stays inside the fresh
shallow copy.  With a slash-containing definition path the overlay of
relative depth ≥ 2 descends into a map shared between the copy and the
model and writes into the raw tree, as the counterexample shows. -/
theorem c7_read_preserves_model (eval : Evaluator) (fuel : Nat) (d : V2.DM)
    (toks : List String) (raw : Bool) (hsf : slashFreeT d.transfs) :
    ((V2.GetModelData eval fuel d toks raw).2).model = d.model :=
  (modelInvAll eval fuel).2.2.1 d toks raw hsf

/-- C7 witness: with the single-token transformation table `{x: ...}`,
a resolved read of the root leaves the raw tree `{a: {b: 1}}`
untouched. -/
theorem c7_read_preserves_model_witness :
    ((V2.GetModelData evalSeven 9
      ⟨[("a", .obj [("b", .num 1)])], [("x", .obj [("implementation", .str "seven")])], [], []⟩
      [] false).2).model = [("a", .obj [("b", .num 1)])] := by
  exact c7_read_preserves_model evalSeven 9
    ⟨[("a", .obj [("b", .num 1)])], [("x", .obj [("implementation", .str "seven")])], [], []⟩
    [] false
    (by
      intro tp tv hm
      simp only [List.mem_singleton, Prod.mk.injEq] at hm
      rw [hm.1]
      decide)

/-! ## C9: the MQTT publish bridge (`PublishMessage`) -/

/-- An MQTT topic configuration (`MqttPath` of mqtt.go).  `publishType`
keeps the Go integer constants: 0 = publish-only (`Pub`),
1 = subscribe-only (`Sub`), 2 = both (`PubSub`). -/
structure MqttPathT where
  topic : String
  qos : Nat
  retain : Bool
  publishType : Nat
deriving Repr, DecidableEq

/-- One issued broker publish: topic, QoS, retain flag and the payload
value (the Go code sends its JSON serialization). -/
structure PubAction where
  topic : String
  qos : Nat
  retain : Bool
  payload : JValue
deriving Repr

/-- The `for path, mqttPaths := range m.Paths` loop of
`PublishMessage`: a mapping whose prefix is a string prefix of the
written path resolves the payload at the MAPPING's prefix path with the
non-raw read and publishes it to every publish-capable entry at the
entry's QoS/retain; a resolution (or marshal) error aborts the loop,
keeping the publishes already issued.  The final `token.Wait()`
aggregation of broker acknowledgments is transport-side and not
modelled. -/
def publishLoop (fullPath : String) (cb : List String → Bool → Except Err JValue) :
    List (String × List MqttPathT) → List PubAction × Option Err
  | [] => ([], none)
  | (pre, mps) :: rest =>
    if goHasPre fullPath pre then
      match cb (goSplit pre) false with
      | .error e => ([], some e)
      | .ok payload =>
        let acts := mps.filterMap (fun mp =>
          if mp.publishType = 0 ∨ mp.publishType = 2 then
            some ⟨mp.topic, mp.qos, mp.retain, payload⟩
          else none)
        let r := publishLoop fullPath cb rest
        (acts ++ r.1, r.2)
    else publishLoop fullPath cb rest

/-- `PublishMessage(pathTokens, getModelDataCallback)` — the callback
abstracts `Model.GetModelData` and is always invoked with `raw = false`
at the mapping's own prefix tokens. -/
def PublishMessage (paths : List (String × List MqttPathT)) (pathTokens : List String)
    (cb : List String → Bool → Except Err JValue) : List PubAction × Option Err :=
  publishLoop (goJoin pathTokens) cb paths

theorem publishLoop_characterization (fullPath : String)
    (cb : List String → Bool → Except Err JValue) :
    ∀ paths : List (String × List MqttPathT),
      (∀ pre mps, (pre, mps) ∈ paths → goHasPre fullPath pre = true →
        ∃ v, cb (goSplit pre) false = .ok v) →
      (publishLoop fullPath cb paths).2 = none ∧
      (∀ a, a ∈ (publishLoop fullPath cb paths).1 ↔
        ∃ pre mps mp pl, (pre, mps) ∈ paths ∧ goHasPre fullPath pre = true ∧
          mp ∈ mps ∧ (mp.publishType = 0 ∨ mp.publishType = 2) ∧
          cb (goSplit pre) false = .ok pl ∧
          a = ⟨mp.topic, mp.qos, mp.retain, pl⟩) := by
  intro paths
  induction paths with
  | nil =>
    intro _
    constructor
    · rfl
    · intro a
      simp [publishLoop]
  | cons hd rest ih =>
    intro hok
    obtain ⟨pre, mps⟩ := hd
    have ihr := ih (fun pre' mps' hm hp => hok pre' mps' (List.mem_cons_of_mem _ hm) hp)
    by_cases hpre : goHasPre fullPath pre = true
    · obtain ⟨v, hv⟩ := hok pre mps (List.mem_cons_self _ _) hpre
      rw [publishLoop, if_pos hpre, hv]
      constructor
      · exact ihr.1
      · intro a
        constructor
        · intro hmem
          rcases List.mem_append.mp hmem with hin | hin
          · rcases List.mem_filterMap.mp hin with ⟨mp, hmp, hsome⟩
            by_cases hcap : mp.publishType = 0 ∨ mp.publishType = 2
            · rw [if_pos hcap] at hsome
              injection hsome with hsome'
              exact ⟨pre, mps, mp, v, List.mem_cons_self _ _, hpre, hmp, hcap, hv,
                hsome'.symm⟩
            · rw [if_neg hcap] at hsome
              cases hsome
          · obtain ⟨pre', mps', mp, pl, hm1, hm2, hm3, hm4, hm5, hm6⟩ := (ihr.2 a).mp hin
            exact ⟨pre', mps', mp, pl, List.mem_cons_of_mem _ hm1, hm2, hm3, hm4, hm5, hm6⟩
        · rintro ⟨pre', mps', mp, pl, hm1, hm2, hm3, hm4, hm5, rfl⟩
          rcases List.mem_cons.mp hm1 with heq | hm1'
          · injection heq with he1 he2
            subst he1
            subst he2
            apply List.mem_append.mpr
            left
            apply List.mem_filterMap.mpr
            refine ⟨mp, hm3, ?_⟩
            rw [if_pos hm4]
            rw [hv] at hm5
            injection hm5 with hpl
            rw [hpl]
          · apply List.mem_append.mpr
            right
            exact (ihr.2 _).mpr ⟨pre', mps', mp, pl, hm1', hm2, hm3, hm4, hm5, rfl⟩
    · rw [publishLoop, if_neg hpre]
      constructor
      · exact ihr.1
      · intro a
        rw [ihr.2 a]
        constructor
        · rintro ⟨pre', mps', mp, pl, hm1, hm2, hm3, hm4, hm5, hm6⟩
          exact ⟨pre', mps', mp, pl, List.mem_cons_of_mem _ hm1, hm2, hm3, hm4, hm5, hm6⟩
        · rintro ⟨pre', mps', mp, pl, hm1, hm2, hm3, hm4, hm5, hm6⟩
          rcases List.mem_cons.mp hm1 with heq | hm1'
          · injection heq with he1 he2
            subst he1
            subst he2
            exact absurd hm2 hpre
          · exact ⟨pre', mps', mp, pl, hm1', hm2, hm3, hm4, hm5, hm6⟩

/-- C9: after a write at `pathTokens`, a publish is issued for exactly
the bus mappings whose prefix is a STRING prefix of the slash-joined
written path (not token-aware), carrying the resolved (non-raw,
`raw = false`) value at the MAPPING's prefix path — not the written
path — to every entry whose direction is publish-capable (0 = publish
or 2 = both) at that entry's QoS and retain flag; provided every
matching prefix resolves, no error is reported. -/
theorem c9_publish_on_write (paths : List (String × List MqttPathT))
    (pathTokens : List String) (cb : List String → Bool → Except Err JValue)
    (hok : ∀ pre mps, (pre, mps) ∈ paths → goHasPre (goJoin pathTokens) pre = true →
      ∃ v, cb (goSplit pre) false = .ok v) :
    (PublishMessage paths pathTokens cb).2 = none ∧
    (∀ a, a ∈ (PublishMessage paths pathTokens cb).1 ↔
      ∃ pre mps mp pl, (pre, mps) ∈ paths ∧ goHasPre (goJoin pathTokens) pre = true ∧
        mp ∈ mps ∧ (mp.publishType = 0 ∨ mp.publishType = 2) ∧
        cb (goSplit pre) false = .ok pl ∧ a = ⟨mp.topic, mp.qos, mp.retain, pl⟩) :=
  publishLoop_characterization (goJoin pathTokens) cb paths hok

/-- C9 witness: a write at `sales/north` triggers the mapping with
prefix `"sale"` (string-prefix match) and not the mapping at `"x"`;
the publish carries the resolved value at the mapping's own prefix
path `sale`, to the publish-capable entry `t1` at QoS 1 with retain. -/
theorem c9_publish_on_write_witness :
    (PublishMessage [("sale", [⟨"t1", 1, true, 0⟩]), ("x", [⟨"t3", 2, false, 2⟩])]
      ["sales", "north"] (fun toks _ => .ok (.str (goJoin toks)))).2 = none ∧
    (⟨"t1", 1, true, .str "sale"⟩ : PubAction) ∈
      (PublishMessage [("sale", [⟨"t1", 1, true, 0⟩]), ("x", [⟨"t3", 2, false, 2⟩])]
        ["sales", "north"] (fun toks _ => .ok (.str (goJoin toks)))).1 := by
  have h := c9_publish_on_write [("sale", [⟨"t1", 1, true, 0⟩]), ("x", [⟨"t3", 2, false, 2⟩])]
    ["sales", "north"] (fun toks _ => .ok (.str (goJoin toks)))
    (fun pre mps hm hp => ⟨.str (goJoin (goSplit pre)), rfl⟩)
  refine ⟨h.1, (h.2 _).mpr ?_⟩
  exact ⟨"sale", [⟨"t1", 1, true, 0⟩], ⟨"t1", 1, true, 0⟩, .str "sale",
    by simp, rfl, by simp, by left; rfl, rfl, rfl⟩

/-! ## C10: helper lemmas and definitions -/

/-- The value the engine binds to `self` when resolving `tp` against
the raw tree `m`. -/
def soloSelf (m : List (String × JValue)) (tp : String) : JValue :=
  match GetMapData m (goSplit tp) with
  | .ok v => v
  | .error _ => .null

/-- The bridge output of a parameterless transformation `tdef` at path
`tp` over the raw tree `m` (`none` when parsing or evaluation fails). -/
def soloValue (eval : Evaluator) (m : List (String × JValue)) (tp : String)
    (tdef : JValue) : Option JValue :=
  match parseTransformation tp tdef with
  | .ok (impl, _) => eval impl [("self", soloSelf m tp)]
  | .error _ => none

theorem slotLookup_slotInsert_self (k : String) (s : V2.Slot)
    (l : List (String × V2.Slot)) :
    V2.slotLookup k (V2.slotInsert k s l) = some s := by
  induction l with
  | nil => simp [V2.slotInsert, V2.slotLookup]
  | cons hd tl ih =>
    obtain ⟨k', s'⟩ := hd
    by_cases h1 : k' = k
    · simp [V2.slotInsert, V2.slotLookup, h1]
    · simp only [V2.slotInsert, if_neg h1, V2.slotLookup, if_neg h1]
      exact ih

theorem slotLookup_slotInsert_ne (k q : String) (s : V2.Slot)
    (l : List (String × V2.Slot)) (h : q ≠ k) :
    V2.slotLookup q (V2.slotInsert k s l) = V2.slotLookup q l := by
  have hk : ¬ (k = q) := fun hh => h (Eq.symm hh)
  induction l with
  | nil => simp [V2.slotInsert, V2.slotLookup, hk]
  | cons hd tl ih =>
    obtain ⟨k', s'⟩ := hd
    by_cases h1 : k' = k
    · subst h1
      simp only [V2.slotInsert, if_pos rfl, V2.slotLookup, if_neg hk]
    · simp only [V2.slotInsert, if_neg h1, V2.slotLookup]
      by_cases h3 : k' = q
      · simp [h3]
      · simp [h3, ih]

theorem slotLookup_map_shared (k : String) (m : List (String × JValue)) :
    V2.slotLookup k (m.map (fun kv => (kv.1, V2.Slot.shared)))
      = (lookupStr k m).map (fun _ => V2.Slot.shared) := by
  induction m with
  | nil => rfl
  | cons hd tl ih =>
    obtain ⟨k', v'⟩ := hd
    by_cases h : k' = k
    · simp [V2.slotLookup, lookupStr, h]
    · simp only [List.map_cons, V2.slotLookup, lookupStr, if_neg h]
      exact ih

theorem lookupStr_materializeSlots (m : List (String × JValue)) (rt : List String)
    (fs : List (String × JValue)) (hm : V2.modelValueAt m rt = some (.obj fs)) :
    ∀ (slots : List (String × V2.Slot)) (k : String),
      lookupStr k (V2.materializeSlots m rt slots)
        = (V2.slotLookup k slots).map (fun s =>
            match s with
            | V2.Slot.shared => (lookupStr k fs).getD .null
            | V2.Slot.fresh v => v) := by
  intro slots
  induction slots with
  | nil => intro k; rfl
  | cons hd tl ih =>
    intro k
    obtain ⟨k', s'⟩ := hd
    rw [V2.materializeSlots] at ih ⊢
    rw [hm] at ih ⊢
    simp only [asMap, Option.getD_some, List.map_cons] at ih ⊢
    by_cases h : k' = k
    · subst h
      cases s' <;> simp [lookupStr, V2.slotLookup]
    · cases s' with
      | shared =>
        simp only [lookupStr, V2.slotLookup, if_neg h]
        exact ih k
      | fresh v =>
        simp only [lookupStr, V2.slotLookup, if_neg h]
        exact ih k

theorem dropWhile_no_slash (l : List Char) (h : ('/' : Char) ∉ l) :
    l.dropWhile (· = '/') = l := by
  cases l with
  | nil => rfl
  | cons c cs =>
    have hc : ¬ (c = '/') := fun hh => h (hh ▸ List.mem_cons_self c cs)
    simp [List.dropWhile_cons, hc]

theorem trimLeftCut_empty_cutset (s : String) : trimLeftCut s "" = s := by
  rw [trimLeftCut]
  have h : s.data.dropWhile (inCutset "") = s.data := by
    induction s.data with
    | nil => rfl
    | cons c cs ih => simp [List.dropWhile_cons, inCutset, ih]
  rw [h]

theorem getStrTokens_root (s : String) (hs : ('/' : Char) ∉ s.data) (hne : s ≠ "") :
    GetStrTokens s "" = [s] := by
  rw [GetStrTokens, trimLeftCut_empty_cutset]
  have ht : trimSlash s = s := by
    rw [trimSlash, dropWhile_no_slash _ hs, dropWhile_no_slash]
    · simp
    · intro hm
      exact hs (List.mem_reverse.mp hm)
  rw [ht, if_neg hne, goSplit, splitSlashAux_no_slash s.data [] hs]
  simp

theorem goHasPre_root (s : String) : goHasPre s "" = true := by
  rw [goHasPre]
  show List.isPrefixOf [] s.data = true
  cases hs : s.data <;> simp [List.isPrefixOf]

theorem lookupStr_none_of_keys_ne (q : String) (l : List (String × JValue))
    (h : ∀ p ∈ l, p.1 ≠ q) : lookupStr q l = none := by
  induction l with
  | nil => rfl
  | cons hd tl ih =>
    obtain ⟨k', v'⟩ := hd
    simp only [lookupStr, if_neg (h (k', v') (List.mem_cons_self _ _))]
    exact ih (fun p hp => h p (List.mem_cons_of_mem _ hp))

theorem applyTransformation_paramless (eval : Evaluator) (fuel : Nat) (d : V2.DM)
    (tp : String) (tdef : JValue) (impl : String) (r : JValue)
    (hc : lookupStr tp d.cache = none)
    (hp : tp ∉ d.processing)
    (ht : lookupStr tp d.transfs = some tdef)
    (hparse : parseTransformation tp tdef = .ok (impl, []))
    (heval : eval impl [("self", soloSelf d.model tp)] = some r) :
    V2.applyTransformation eval (fuel + 1) d tp
      = (.ok r, ⟨d.model, d.transfs, objInsert tp r d.cache, d.processing⟩) := by
  rw [V2.applyTransformation, hc, if_neg hp]
  cases hg : GetMapData d.model (goSplit tp) with
  | ok sv =>
    have hsb : soloSelf d.model tp = sv := by rw [soloSelf, hg]
    rw [hsb] at heval
    simp only [ht, hparse, hg, V2.resolveParams, bindParams, List.foldl, heval]
    rw [List.erase_cons_head]
  | error ge =>
    have hnf := GetMapData_error_isNotFound _ _ _ hg
    have hsb : soloSelf d.model tp = .null := by rw [soloSelf, hg]
    rw [hsb] at heval
    simp only [ht, hparse, hg, hnf, V2.resolveParams, bindParams, List.foldl, heval]
    rw [List.erase_cons_head, if_pos trivial]
    simp only [heval]

/-- Running the overlay loop at the root (`readToks = []`, `path = ""`)
over a duplicate-free list of parameterless, slash-free, successfully
evaluating transformations: the data-model state is unchanged except for
the new cache entries, and each slot of the result is characterized by
a per-key lookup in the transformation list. -/
theorem overlayLoop_paramless (eval : Evaluator) (M T : List (String × JValue))
    (tps : List (String × JValue)) :
    ∀ (fuel : Nat) (d : V2.DM) (slots : List (String × V2.Slot)),
      d.model = M → d.transfs = T → d.processing = [] →
      tps.Pairwise (fun a b => a.1 ≠ b.1) →
      (∀ p ∈ tps, lookupStr p.1 T = some p.2) →
      (∀ p ∈ tps, ('/' : Char) ∉ p.1.data ∧ p.1 ≠ "" ∧
        ∃ impl, parseTransformation p.1 p.2 = .ok (impl, []) ∧
          ∃ r, eval impl [("self", soloSelf M p.1)] = some r) →
      (∀ p ∈ tps, lookupStr p.1 d.cache = none) →
      tps.length + 1 ≤ fuel →
      ((V2.overlayLoop eval fuel d [] "" slots tps).2.model = M ∧
       (V2.overlayLoop eval fuel d [] "" slots tps).2.transfs = T ∧
       (V2.overlayLoop eval fuel d [] "" slots tps).2.processing = []) ∧
      (∀ k, V2.slotLookup k (V2.overlayLoop eval fuel d [] "" slots tps).1
        = match lookupStr k tps with
          | some tv => some (V2.Slot.fresh ((soloValue eval M k tv).getD .null))
          | none => V2.slotLookup k slots) := by
  induction tps with
  | nil =>
    intro fuel d slots hM hT hP _ _ _ _ _
    cases fuel with
    | zero => exact ⟨⟨hM, hT, hP⟩, fun k => rfl⟩
    | succ n => exact ⟨⟨hM, hT, hP⟩, fun k => rfl⟩
  | cons hd rest ih =>
    intro fuel d slots hM hT hP hnd hlookT hwf hcache hlen
    obtain ⟨tp, tv⟩ := hd
    cases fuel with
    | zero => exact absurd hlen (by simp)
    | succ n =>
      obtain ⟨m, rfl⟩ : ∃ m, n = m + 1 :=
        ⟨n - 1, by simp only [List.length_cons] at hlen; omega⟩
      obtain ⟨hsl, hne, impl, hparse, r, heval⟩ := hwf (tp, tv) (List.mem_cons_self _ _)
      have happly := applyTransformation_paramless eval m d tp tv impl r
        (hcache (tp, tv) (List.mem_cons_self _ _))
        (by rw [hP]; exact List.not_mem_nil _)
        (by rw [hT]; exact hlookT (tp, tv) (List.mem_cons_self _ _))
        hparse
        (by rw [hM]; exact heval)
      have hpre : goHasPre tp "" = true := goHasPre_root tp
      have hstep : V2.overlayLoop eval (m + 2) d [] "" slots ((tp, tv) :: rest)
          = V2.overlayLoop eval (m + 1)
              ⟨d.model, d.transfs, objInsert tp r d.cache, d.processing⟩ [] ""
              (V2.slotInsert tp (V2.Slot.fresh r) slots) rest := by
        rw [V2.overlayLoop, if_pos hpre, happly, getStrTokens_root tp hsl hne]
        rfl
      rw [hstep]
      clear hstep
      have hpc := List.pairwise_cons.mp hnd
      have hrec := ih (m + 1) ⟨d.model, d.transfs, objInsert tp r d.cache, d.processing⟩
        (V2.slotInsert tp (V2.Slot.fresh r) slots) hM hT hP hpc.2
        (fun p hp => hlookT p (List.mem_cons_of_mem _ hp))
        (fun p hp => hwf p (List.mem_cons_of_mem _ hp))
        (fun p hp => by
          rw [show (⟨d.model, d.transfs, objInsert tp r d.cache, d.processing⟩ : V2.DM).cache
                = objInsert tp r d.cache from rfl,
              lookupStr_objInsert_ne tp p.1 r d.cache (fun hh => hpc.1 p hp hh.symm)]
          exact hcache p (List.mem_cons_of_mem _ hp))
        (by simp only [List.length_cons] at hlen ⊢; omega)
      refine ⟨hrec.1, fun k => ?_⟩
      have hk := hrec.2 k
      by_cases hkt : tp = k
      · subst hkt
        have hnone : lookupStr tp rest = none :=
          lookupStr_none_of_keys_ne tp rest (fun p hp => (hpc.1 p hp).symm)
        simp only [hnone, slotLookup_slotInsert_self] at hk
        rw [hk]
        have hv : soloValue eval M tp tv = some r := by
          rw [soloValue, hparse]
          exact heval
        simp only [lookupStr, eq_self_iff_true, if_true, hv, Option.getD_some]
      · have hne' : ¬ (k = tp) := fun hh => hkt hh.symm
        rw [slotLookup_slotInsert_ne tp k (V2.Slot.fresh r) slots hne'] at hk
        rw [hk]
        simp only [lookupStr, if_neg hkt]

/-- Two association lists that are permutations of one another (the two
iteration orders Go may pick for the same map) with pairwise-distinct
keys agree on every lookup. -/
theorem lookupStr_perm (l₁ l₂ : List (String × JValue)) (hperm : l₁.Perm l₂)
    (hnd : l₁.Pairwise (fun a b => a.1 ≠ b.1)) (k : String) :
    lookupStr k l₁ = lookupStr k l₂ := by
  induction hperm with
  | nil => rfl
  | cons x hp ih =>
    obtain ⟨k', v'⟩ := x
    simp only [lookupStr]
    by_cases h : k' = k
    · simp [h]
    · simp only [if_neg h]
      exact ih (List.pairwise_cons.mp hnd).2
  | swap x y l =>
    obtain ⟨k1, v1⟩ := x
    obtain ⟨k2, v2⟩ := y
    simp only [lookupStr]
    by_cases h1 : k1 = k
    · by_cases h2 : k2 = k
      · have hne12 := (List.pairwise_cons.mp hnd).1 (k1, v1) (List.mem_cons_self _ _)
        exact absurd (h2.trans h1.symm) hne12
      · simp [h1, h2]
    · by_cases h2 : k2 = k <;> simp [h1, h2]
  | trans h12 h23 ih1 ih2 =>
    have hnd2 := (List.Perm.pairwise_iff (fun h => Ne.symm h) h12).mp hnd
    exact (ih1 hnd).trans (ih2 hnd2)

theorem lookupStr_of_mem_pairwise (T : List (String × JValue)) :
    T.Pairwise (fun a b => a.1 ≠ b.1) → ∀ p ∈ T, lookupStr p.1 T = some p.2 := by
  induction T with
  | nil => intro _ p hp; cases hp
  | cons hd tl ih =>
    intro hnd p hp
    obtain ⟨k', v'⟩ := hd
    have hpc := List.pairwise_cons.mp hnd
    rcases List.mem_cons.mp hp with h | h
    · subst h
      simp [lookupStr]
    · simp only [lookupStr, if_neg (hpc.1 p h)]
      exact ih hpc.2 p h

/-- The root resolved read (`GetModelData([], raw=false)`) over a
duplicate-free family of parameterless, slash-free, successfully
evaluating transformations succeeds with an object; its binding at each
key is the bridge output when a transformation is registered at that
key and the raw model binding otherwise. -/
theorem rootRead_paramless (eval : Evaluator) (M T : List (String × JValue))
    (hnd : T.Pairwise (fun a b => a.1 ≠ b.1))
    (hwf : ∀ p ∈ T, ('/' : Char) ∉ p.1.data ∧ p.1 ≠ "" ∧
        ∃ impl, parseTransformation p.1 p.2 = .ok (impl, []) ∧
          ∃ r, eval impl [("self", soloSelf M p.1)] = some r)
    (fuel : Nat) (hfuel : T.length + 3 ≤ fuel) :
    ∃ f, (V2.GetModelData eval fuel ⟨M, T, [], []⟩ [] false).1 = .ok (.obj f) ∧
      ∀ k, lookupStr k f
        = match lookupStr k T with
          | some tv => some ((soloValue eval M k tv).getD .null)
          | none => lookupStr k M := by
  obtain ⟨F, rfl⟩ : ∃ F, fuel = F + 1 + 1 := ⟨fuel - 2, by omega⟩
  have hloop := overlayLoop_paramless eval M T T F ⟨M, T, [], []⟩
      (M.map (fun kv => (kv.1, V2.Slot.shared)))
      rfl rfl rfl hnd (lookupStr_of_mem_pairwise T hnd) hwf
      (fun p _ => rfl) (by omega)
  refine ⟨V2.materializeSlots
      (V2.overlayLoop eval F ⟨M, T, [], []⟩ [] ""
        (M.map (fun kv => (kv.1, V2.Slot.shared))) T).2.model []
      (V2.overlayLoop eval F ⟨M, T, [], []⟩ [] ""
        (M.map (fun kv => (kv.1, V2.Slot.shared))) T).1, ?_, ?_⟩
  · rfl
  · intro k
    rw [lookupStr_materializeSlots _ [] _ rfl _ k]
    rw [hloop.1.1]
    rw [hloop.2 k]
    cases hT : lookupStr k T with
    | some tv => rfl
    | none =>
      rw [slotLookup_map_shared k M]
      cases hM' : lookupStr k M with
      | none => rfl
      | some w => simp

/-! ## C10: fixtures, counterexample and order-independence theorem -/

/-- A deterministic bridge: `implA` yields `5`, `implAB` yields `7`. -/
def evalC10 : Evaluator := fun impl _ =>
  if impl = "implA" then some (.num 5)
  else if impl = "implAB" then some (.num 7) else none

/-- Raw tree `{"a": {"b": 1}}`. -/
def mC10 : List (String × JValue) := [("a", .obj [("b", .num 1)])]

/-- Transformation at top-level path `a`. -/
def tpA : String × JValue := ("a", .obj [("implementation", .str "implA")])

/-- Transformation at the nested path `a/b`. -/
def tpAB : String × JValue := ("a/b", .obj [("implementation", .str "implAB")])

/-- Transformation at top-level path `c` (slash-free witness fixture). -/
def tpC : String × JValue := ("c", .obj [("implementation", .str "implAB")])

/-- C10 (counterexample): with the raw tree `{"a": {"b": 1}}` and the two
transformations `a ↦ 5` and `a/b ↦ 7`, the two iteration orders of the
same transformation map give different resolved root reads: overlaying
`a` first yields `{"a": {"b": 7}}` (the nested write lands in the fresh
copy of `5`, which is not a mapping, so a new object is built), while
overlaying `a/b` first writes `7` through the still-shared slot into the
model's own nested map and the later overlay of `a` replaces the whole
entry by `5`, yielding `{"a": 5}`. -/
theorem c10_counterexample :
    [tpA, tpAB].Perm [tpAB, tpA] ∧
    (V2.GetModelData evalC10 10 ⟨mC10, [tpA, tpAB], [], []⟩ [] false).1
      = .ok (.obj [("a", .obj [("b", .num 7)])]) ∧
    (V2.GetModelData evalC10 10 ⟨mC10, [tpAB, tpA], [], []⟩ [] false).1
      = .ok (.obj [("a", .num 5)]) ∧
    (Except.ok (.obj [("a", .obj [("b", .num 7)])]) : Except Err JValue)
      ≠ .ok (.obj [("a", .num 5)]) :=
  ⟨List.Perm.swap tpAB tpA [], rfl, rfl, by simp⟩

/-- C10 (amended): the resolved root read is order-independent on the
slash-free fragment: when every registered transformation has a
slash-free nonempty path, parses with no parameters and evaluates
successfully, two iteration orders of the same duplicate-free
transformation map (any permutation) give resolved root reads that both
succeed with objects agreeing at every key. -/
theorem c10_resolved_read_order_independent (eval : Evaluator)
    (M T₁ T₂ : List (String × JValue)) (hperm : T₁.Perm T₂)
    (hnd : T₁.Pairwise (fun a b => a.1 ≠ b.1))
    (hwf : ∀ p ∈ T₁, ('/' : Char) ∉ p.1.data ∧ p.1 ≠ "" ∧
        ∃ impl, parseTransformation p.1 p.2 = .ok (impl, []) ∧
          ∃ r, eval impl [("self", soloSelf M p.1)] = some r)
    (fuel₁ fuel₂ : Nat) (h1 : T₁.length + 3 ≤ fuel₁) (h2 : T₂.length + 3 ≤ fuel₂) :
    ∃ f₁ f₂,
      (V2.GetModelData eval fuel₁ ⟨M, T₁, [], []⟩ [] false).1 = .ok (.obj f₁) ∧
      (V2.GetModelData eval fuel₂ ⟨M, T₂, [], []⟩ [] false).1 = .ok (.obj f₂) ∧
      ∀ k, lookupStr k f₁ = lookupStr k f₂ := by
  obtain ⟨f₁, hf₁, hc₁⟩ := rootRead_paramless eval M T₁ hnd hwf fuel₁ h1
  have hnd₂ := (List.Perm.pairwise_iff (fun h => Ne.symm h) hperm).mp hnd
  have hwf₂ : ∀ p ∈ T₂, ('/' : Char) ∉ p.1.data ∧ p.1 ≠ "" ∧
      ∃ impl, parseTransformation p.1 p.2 = .ok (impl, []) ∧
        ∃ r, eval impl [("self", soloSelf M p.1)] = some r :=
    fun p hp => hwf p (hperm.mem_iff.mpr hp)
  obtain ⟨f₂, hf₂, hc₂⟩ := rootRead_paramless eval M T₂ hnd₂ hwf₂ fuel₂ h2
  refine ⟨f₁, f₂, hf₁, hf₂, fun k => ?_⟩
  rw [hc₁ k, hc₂ k, lookupStr_perm T₁ T₂ hperm hnd k]

/-- Witness for the amended C10 theorem: the slash-free fixtures `a ↦ 5`
and `c ↦ 7` at both iteration orders. -/
theorem c10_resolved_read_order_independent_witness :
    ∃ f₁ f₂,
      (V2.GetModelData evalC10 5 ⟨mC10, [tpA, tpC], [], []⟩ [] false).1 = .ok (.obj f₁) ∧
      (V2.GetModelData evalC10 5 ⟨mC10, [tpC, tpA], [], []⟩ [] false).1 = .ok (.obj f₂) ∧
      ∀ k, lookupStr k f₁ = lookupStr k f₂ :=
  c10_resolved_read_order_independent evalC10 mC10 [tpA, tpC] [tpC, tpA]
    (List.Perm.swap tpC tpA [])
    (by simp [tpA, tpC])
    (by
      intro p hp
      rcases List.mem_cons.mp hp with rfl | hp
      · exact ⟨by decide, by decide, "implA", rfl, .num 5, rfl⟩
      · rcases List.mem_cons.mp hp with rfl | hp
        · exact ⟨by decide, by decide, "implAB", rfl, .num 7, rfl⟩
        · cases hp)
    5 5 (by decide) (by decide)
